import Mathlib

/-!
Verification development for the spark-mcp documentation pipeline.

The development shallowly embeds the two core scripts:

* `docs/api/build_split.py` — the size-bounded document splitter
  (`split_if_large`, `size_of_eps`, `write_json`) together with a faithful
  model of `json.dumps(obj, ensure_ascii=False, indent=2)` over a JSON value
  type, measuring sizes in UTF-8 bytes exactly as
  `len(json.dumps(...).encode("utf-8"))` does.

* `docs/api/split_api_docs.py` — the HTML block extractor
  (`html_to_blocks`, `_node_to_text`, `_inline_runs`, `_slugify`,
  section slug selection), over an HTML element-tree type standing for the
  tree BeautifulSoup produces.

Python strings are modelled as `List Char` (a sequence of Unicode code
points); Python regular-expression rewrites used by the scripts are modelled
by explicit structurally recursive scanners with the same semantics.
-/

namespace Spark

/-- ASCII whitespace, as matched by the Python regexes (`\s`) and
`str.strip` used in the scripts on this data. -/
def isSpace (c : Char) : Bool :=
  c == ' ' || c == '\t' || c == '\n' || c == '\r' || c == '\x0b' || c == '\x0c'

/-- Python `str.lstrip()`. -/
def pyLstrip (s : List Char) : List Char := s.dropWhile isSpace

/-- Python `str.rstrip()`. -/
def pyRstrip (s : List Char) : List Char := (s.reverse.dropWhile isSpace).reverse

/-- Python `str.strip()`. -/
def pyStrip (s : List Char) : List Char := pyRstrip (pyLstrip s)

/-- Python `str.rstrip("\n")`, used on extracted code text. -/
def rstripNl (s : List Char) : List Char := (s.reverse.dropWhile (· == '\n')).reverse

/-- ASCII lowercasing of one character, modelling Python `str.lower()` on the
ASCII range (the only range the scripts compare against). -/
def lowerChar (c : Char) : Char :=
  if 'A' ≤ c ∧ c ≤ 'Z' then Char.ofNat (c.toNat + 32) else c

/-- Python `str.lower()`. -/
def lowerStr (s : List Char) : List Char := s.map lowerChar

/-- State-machine core of `subRuns`: replace each maximal run of characters
matched by `p` with the single character `r` (the semantics of
`re.sub(p+, r, s)`).  `inRun` records whether the previous character was
part of a run. -/
def subRunsGo (p : Char → Bool) (r : Char) : Bool → List Char → List Char
  | _, [] => []
  | inRun, c :: rest =>
      if p c then
        if inRun then subRunsGo p r true rest else r :: subRunsGo p r true rest
      else c :: subRunsGo p r false rest

/-- Replace each maximal nonempty run of `p`-characters by the single
character `r`, as `re.sub` does for a pattern of the form `X+`. -/
def subRuns (p : Char → Bool) (r : Char) (s : List Char) : List Char :=
  subRunsGo p r false s

/-- Model of `_collapse_ws` from `split_api_docs.py`:
`re.sub(r"\s+", " ", (text or "").strip())`. -/
def collapse_ws (s : List Char) : List Char := subRuns isSpace ' ' (pyStrip s)

/-- Number of bytes of the UTF-8 encoding of one code point. -/
def utf8Len (c : Char) : Nat :=
  if c.toNat < 0x80 then 1
  else if c.toNat < 0x800 then 2
  else if c.toNat < 0x10000 then 3
  else 4

/-- Number of bytes of the UTF-8 encoding of a string, modelling Python
`len(s.encode("utf-8"))`. -/
def byteLen (s : List Char) : Nat := (s.map utf8Len).sum

/-- Decimal digit character. -/
def digitChar (d : Nat) : Char := Char.ofNat (48 + d)

/-- Fuel-driven decimal rendering; with fuel at least the digit count this
matches Python `str(n)` for a nonnegative integer. -/
def decReprAux : Nat → Nat → List Char
  | 0, _ => []
  | f + 1, n => if n < 10 then [digitChar n] else decReprAux f (n / 10) ++ [digitChar (n % 10)]

/-- Python `str(n)` for a natural number (decimal, no sign). -/
def decRepr (n : Nat) : List Char := decReprAux (n + 1) n

/-- Hexadecimal digit character (lowercase), as in Python `\uXXXX` escapes. -/
def hexDigit (d : Nat) : Char := if d < 10 then digitChar d else Char.ofNat (87 + d)

/-! ## JSON values and the serializer of `json.dumps(..., ensure_ascii=False, indent=2)`

`Json`, `JArr` and `JObj` are a mutual presentation of JSON values (arrays
and objects carry their children through the two auxiliary list-like types,
which keeps every function below structurally recursive and hence
kernel-reducible).  Numbers are modelled as integers: every number the
pipeline serializes is an integer. -/

mutual
inductive Json where
  | null
  | bool (b : Bool)
  | num (n : Int)
  | str (s : List Char)
  | arr (elems : JArr)
  | obj (members : JObj)
deriving DecidableEq
inductive JArr where
  | nil
  | cons (hd : Json) (tl : JArr)
deriving DecidableEq
inductive JObj where
  | nil
  | cons (k : List Char) (v : Json) (tl : JObj)
deriving DecidableEq
end

/-- Build a `JArr` from a list of values. -/
def JArr.ofList : List Json → JArr
  | [] => .nil
  | j :: js => .cons j (JArr.ofList js)

/-- Python `str(n)` for an integer (adds the sign for negatives). -/
def intRepr : Int → List Char
  | .ofNat n => decRepr n
  | .negSucc m => '-' :: decRepr (m + 1)

/-- Escape of one character inside a JSON string literal, exactly as
`json.dumps` with `ensure_ascii=False` escapes it: quote, backslash and the
named control escapes get two-character escapes, the remaining control
characters below U+0020 get a `\u00XX` escape, and everything else —
non-ASCII included — is emitted unchanged. -/
def escChar (c : Char) : List Char :=
  if c = '"' then ['\\', '"']
  else if c = '\\' then ['\\', '\\']
  else if c = '\n' then ['\\', 'n']
  else if c = '\t' then ['\\', 't']
  else if c = '\r' then ['\\', 'r']
  else if c = '\x08' then ['\\', 'b']
  else if c = '\x0c' then ['\\', 'f']
  else if c.toNat < 0x20 then ['\\', 'u', '0', '0', hexDigit (c.toNat / 16), hexDigit (c.toNat % 16)]
  else [c]

/-- Escape of a JSON string body. -/
def escape : List Char → List Char
  | [] => []
  | c :: r => escChar c ++ escape r

/-- Indent every line after a newline by two further spaces.  In serialized
JSON a raw `'\n'` occurs only as a structural newline (string bodies escape
all control characters), so re-indenting a nested rendering this way agrees
with serializing it at the deeper level directly. -/
def indent2 : List Char → List Char
  | [] => []
  | c :: r => if c = '\n' then '\n' :: ' ' :: ' ' :: indent2 r else c :: indent2 r

mutual
/-- Serialize a JSON value at top level, in the exact format of
`json.dumps(obj, ensure_ascii=False, indent=2)`. -/
def dumpVal : Json → List Char
  | .null => "null".data
  | .bool b => if b then "true".data else "false".data
  | .num n => intRepr n
  | .str s => '"' :: escape s ++ ['"']
  | .arr es => dumpArr es
  | .obj ms => dumpObj ms
termination_by structural j => j
/-- Serialize an array: `[]` when empty, otherwise one element per line,
each line two spaces deeper than the brackets. -/
def dumpArr : JArr → List Char
  | .nil => "[]".data
  | .cons e es =>
      '[' :: '\n' :: ' ' :: ' ' :: indent2 (dumpVal e ++ dumpMoreItems es) ++ '\n' :: [']']
termination_by structural a => a
/-- Comma-separated continuation of a nonempty array body. -/
def dumpMoreItems : JArr → List Char
  | .nil => []
  | .cons e es => ',' :: '\n' :: dumpVal e ++ dumpMoreItems es
termination_by structural a => a
/-- Serialize an object: `\x7b\x7d` when empty, otherwise one `"key": value`
member per line, two spaces deeper than the braces. -/
def dumpObj : JObj → List Char
  | .nil => "\x7b\x7d".data
  | .cons k v ms =>
      '\x7b' :: '\n' :: ' ' :: ' ' ::
        indent2 ('"' :: escape k ++ '"' :: ':' :: ' ' :: dumpVal v ++ dumpMoreFields ms) ++
        '\n' :: ['\x7d']
termination_by structural o => o
/-- Comma-separated continuation of a nonempty object body. -/
def dumpMoreFields : JObj → List Char
  | .nil => []
  | .cons k v ms => ',' :: '\n' :: '"' :: escape k ++ '"' :: ':' :: ' ' :: dumpVal v ++ dumpMoreFields ms
termination_by structural o => o
end

/-- Look up a key among an object's members (first match). -/
def JObj.lookup : JObj → List Char → Option Json
  | .nil, _ => none
  | .cons k v r, key => if k = key then some v else JObj.lookup r key

/-- Look up a key in a JSON value; `none` on non-objects. -/
def Json.lookup : Json → List Char → Option Json
  | .obj ms, key => ms.lookup key
  | _, _ => none

/-! ## The size-bounded splitter of `build_split.py` -/

/-- Byte budget per part: `KB_LIMIT = 120 * 1024` in `build_split.py`. -/
def KB_LIMIT : Nat := 120 * 1024

/-- The resource document handed to `split_if_large` by `build_resources`:
a dict with keys `title`, `category`, `resource`, `endpoints` in that
insertion order.  Each endpoint is an opaque JSON value. -/
structure ResourceDoc where
  title : List Char
  category : List Char
  resource : List Char
  endpoints : List Json
deriving DecidableEq

/-- The JSON object `\x7b**base_obj, "endpoints": eps\x7d`: the document shape
with its `endpoints` replaced (replacing a present key keeps dict order). -/
def doc_json (base : ResourceDoc) (eps : List Json) : Json :=
  .obj (.cons "title".data (.str base.title)
    (.cons "category".data (.str base.category)
      (.cons "resource".data (.str base.resource)
        (.cons "endpoints".data (.arr (JArr.ofList eps)) .nil))))

/-- Model of the `size_of_eps` closure in `split_if_large`:
`len(json.dumps(\x7b**base_obj, "endpoints": eps\x7d, ensure_ascii=False, indent=2).encode("utf-8"))`. -/
def size_of_eps (base : ResourceDoc) (eps : List Json) : Nat :=
  byteLen (dumpVal (doc_json base eps))

/-- The greedy accumulation loop of `split_if_large` (lines 275-283): scan
endpoints in order; before each, measure the candidate part; if it would
exceed the budget and the current chunk is nonempty, close the chunk and
start a new one at this endpoint, otherwise accept the endpoint.  The final
nonempty chunk is appended at the end. -/
def split_loop (sz : List Json → Nat) : List Json → List (List Json) → List Json → List (List Json)
  | [], parts, chunk => if chunk = [] then parts else parts ++ [chunk]
  | ep :: rest, parts, chunk =>
      let est := sz (chunk ++ [ep])
      if KB_LIMIT < est ∧ chunk ≠ [] then split_loop sz rest (parts ++ [chunk]) [ep]
      else split_loop sz rest parts (chunk ++ [ep])

/-- The endpoint partition computed by the splitting branch of
`split_if_large`. -/
def split_endpoints (base : ResourceDoc) : List (List Json) :=
  split_loop (size_of_eps base) base.endpoints [] []

/-- The endpoint slices of the emitted parts of `split_if_large`: a single
slice holding all endpoints when the document is written unsplit (empty
`endpoints`, or whole document within budget), the greedy partition
otherwise. -/
def part_slices (base : ResourceDoc) : List (List Json) :=
  if base.endpoints = [] then [base.endpoints]
  else if size_of_eps base base.endpoints ≤ KB_LIMIT then [base.endpoints]
  else split_endpoints base

/-- Part filename `f"\x7bbase_path.stem\x7d.part\x7bidx\x7d.json"`. -/
def part_name (stem : List Char) (idx : Nat) : List Char :=
  stem ++ ".part".data ++ decRepr idx ++ ".json".data

/-- A part document: the full document shape with `endpoints` replaced by
the slice and the `parts` key (appended last) set to the sibling filename
list, as each part file finally holds after the update pass of
`split_if_large` (lines 292-297). -/
def doc_json_parts (base : ResourceDoc) (eps : List Json) (names : List (List Char)) : Json :=
  .obj (.cons "title".data (.str base.title)
    (.cons "category".data (.str base.category)
      (.cons "resource".data (.str base.resource)
        (.cons "endpoints".data (.arr (JArr.ofList eps))
          (.cons "parts".data (.arr (JArr.ofList (names.map Json.str))) .nil)))))

/-- Model of `split_if_large` (lines 258-298): the list of
`(filename, document)` pairs the call leaves on disk, with each document in
its final state.  Unsplit documents keep the original shape (no `parts`
key); split documents are the part shape with the shared `parts` list. -/
def split_if_large (base : ResourceDoc) (stem : List Char) : List (List Char × Json) :=
  if base.endpoints = [] then [(stem ++ ".json".data, doc_json base base.endpoints)]
  else if size_of_eps base base.endpoints ≤ KB_LIMIT then
    [(stem ++ ".json".data, doc_json base base.endpoints)]
  else
    let chunks := split_endpoints base
    let names := (List.range chunks.length).map (fun i => part_name stem (i + 1))
    names.zip (chunks.map (fun eps => doc_json_parts base eps names))

/-! ## The `write_json` tag filter of `build_split.py`

`write_json` serializes, then — if `re.search(r"<[^>]+>", data)` finds a
match — replaces every occurrence of `<[^>]+>` in the whole serialized text
by the empty string before writing.  The two scanners below implement the
search and the substitution of that regex: a match is `<`, then one or more
characters other than `>`, then `>`; matches are found left to right and
are non-overlapping. -/

/-- Scanner for `re.search(r"<[^>]+>", s)`: state `none` outside a candidate
tag, state `some ne` inside one, where `ne` records whether at least one
non-`>` character followed the opening `<`. -/
def has_tag_go : Option Bool → List Char → Bool
  | _, [] => false
  | none, c :: rest => if c = '<' then has_tag_go (some false) rest else has_tag_go none rest
  | some ne, c :: rest =>
      if c = '>' then (if ne then true else has_tag_go none rest)
      else has_tag_go (some true) rest

/-- Whether the text contains a match of `<[^>]+>`. -/
def has_tag (s : List Char) : Bool := has_tag_go none s

/-- Scanner for `re.sub(r"<[^>]+>", "", s)`: in state `some run` the scanner
has consumed an `<` plus the run of non-`>` characters after it; a closing
`>` after a nonempty run deletes the whole match, a `>` right after the `<`
emits both characters unchanged (the regex needs at least one run
character), and end of input emits the pending text verbatim. -/
def strip_tags_go : Option (List Char) → List Char → List Char
  | none, [] => []
  | none, c :: rest => if c = '<' then strip_tags_go (some []) rest else c :: strip_tags_go none rest
  | some run, [] => '<' :: run
  | some run, c :: rest =>
      if c = '>' then
        if run = [] then '<' :: '>' :: strip_tags_go none rest
        else strip_tags_go none rest
      else strip_tags_go (some (run ++ [c])) rest

/-- Remove every match of `<[^>]+>` from the text. -/
def strip_tags (s : List Char) : List Char := strip_tags_go none s

/-- The text `write_json` actually writes for a document: the serialization,
tag-stripped whenever the raw serialization contains a tag-like match. -/
def write_json_text (obj : Json) : List Char :=
  let data := dumpVal obj
  if has_tag data then strip_tags data else data

/-- The text contains no substring matching `<[^>]+>`: every decomposition
around a `<` ... `>` pair has an empty run or a run already containing `>`. -/
def tag_free (s : List Char) : Prop :=
  ∀ pre run post, s = pre ++ '<' :: (run ++ '>' :: post) → run = [] ∨ '>' ∈ run

/-! ## Sanity anchor for the serializer -/

/-- The serializer reproduces `json.dumps(..., ensure_ascii=False, indent=2)`
byte for byte on a sample resource document (output checked against CPython). -/
theorem dumps_matches_python_sample :
    dumpVal (doc_json ⟨"t".data, "c".data, "r".data, []⟩ [Json.null, Json.num 5]) =
      "\x7b\n  \"title\": \"t\",\n  \"category\": \"c\",\n  \"resource\": \"r\",\n  \"endpoints\": [\n    null,\n    5\n  ]\n\x7d".data := by
  decide

/-! ## Decimal rendering: evaluation and injectivity -/

/-- Decimal digits evaluate back to their value under a base-10 fold. -/
def valFold (a : Nat) (l : List Char) : Nat :=
  l.foldl (fun a c => 10 * a + (c.toNat - 48)) a

theorem digitChar_toNat (d : Nat) (h : d < 10) : (digitChar d).toNat = 48 + d := by
  interval_cases d <;> decide

theorem decReprAux_val (f : Nat) : ∀ n, n < 10 ^ f →
    ∀ a, valFold a (decReprAux f n) = a * 10 ^ (decReprAux f n).length + n := by
  induction f with
  | zero =>
      intro n hn a
      interval_cases n
      simp [decReprAux, valFold]
  | succ f ih =>
      intro n hn a
      by_cases h10 : n < 10
      · simp only [decReprAux, if_pos h10]
        simp [valFold, digitChar_toNat n h10]
        ring
      · simp only [decReprAux, if_neg h10]
        have hdiv : n / 10 < 10 ^ f := by
          apply Nat.div_lt_of_lt_mul
          simpa [Nat.pow_succ, Nat.mul_comm] using hn
        have hmod : n % 10 < 10 := Nat.mod_lt _ (by norm_num)
        simp only [valFold, List.foldl_append, List.foldl_cons, List.foldl_nil,
          List.length_append, List.length_cons, List.length_nil]
        have := ih (n / 10) hdiv a
        simp only [valFold] at this
        rw [this, digitChar_toNat _ hmod]
        have hnm : 10 * (n / 10) + n % 10 = n := Nat.div_add_mod n 10
        ring_nf
        omega

theorem decRepr_val (n : Nat) : valFold 0 (decRepr n) = n := by
  have hb : n < 10 ^ (n + 1) :=
    lt_of_lt_of_le (Nat.lt_pow_self (by norm_num) n) (Nat.pow_le_pow_right (by norm_num) (Nat.le_succ n))
  simpa using decReprAux_val (n + 1) n hb 0

theorem decRepr_inj {m n : Nat} (h : decRepr m = decRepr n) : m = n := by
  have hm := decRepr_val m
  rw [h, decRepr_val] at hm
  omega

/-! ## Byte-length lemmas and lower bounds on serialized sizes -/

theorem byteLen_append (a b : List Char) : byteLen (a ++ b) = byteLen a + byteLen b := by
  simp [byteLen]

theorem byteLen_cons (c : Char) (l : List Char) : byteLen (c :: l) = utf8Len c + byteLen l := by
  simp [byteLen]

theorem one_le_utf8Len (c : Char) : 1 ≤ utf8Len c := by
  unfold utf8Len
  repeat' split
  all_goals omega

theorem length_le_byteLen (l : List Char) : l.length ≤ byteLen l := by
  induction l with
  | nil => simp [byteLen]
  | cons c t ih =>
      have := one_le_utf8Len c
      rw [byteLen_cons]
      simp only [List.length_cons]
      omega

theorem byteLen_le_indent2 (l : List Char) : byteLen l ≤ byteLen (indent2 l) := by
  induction l with
  | nil => simp [indent2]
  | cons c t ih =>
      by_cases h : c = '\n'
      · subst h
        have h1 : indent2 ('\n' :: t) = '\n' :: ' ' :: ' ' :: indent2 t := by simp [indent2]
        rw [h1, byteLen_cons, byteLen_cons, byteLen_cons, byteLen_cons]
        omega
      · have h1 : indent2 (c :: t) = c :: indent2 t := by simp [indent2, h]
        rw [h1, byteLen_cons, byteLen_cons]
        omega

theorem one_le_byteLen_escChar (c : Char) : 1 ≤ byteLen (escChar c) := by
  unfold escChar
  repeat' split
  · decide
  · decide
  · decide
  · decide
  · decide
  · decide
  · decide
  · rw [byteLen_cons]
    have h1 : utf8Len '\\' = 1 := rfl
    omega
  · rw [byteLen_cons]
    have := one_le_utf8Len c
    omega

theorem length_le_byteLen_escape (s : List Char) : s.length ≤ byteLen (escape s) := by
  induction s with
  | nil => simp [escape, byteLen]
  | cons c t ih =>
      simp only [escape, byteLen_append, List.length_cons]
      have := one_le_byteLen_escChar c
      omega

theorem escape_le_dumpVal_str (s : List Char) : byteLen (escape s) ≤ byteLen (dumpVal (.str s)) := by
  simp only [dumpVal, byteLen_cons, byteLen_append]
  omega

theorem head_le_dumpMoreItems (e : Json) (tl : JArr) :
    byteLen (dumpVal e) ≤ byteLen (dumpMoreItems (.cons e tl)) := by
  simp only [dumpMoreItems, byteLen_cons, byteLen_append]
  omega

theorem tail_le_dumpMoreItems (e : Json) (tl : JArr) :
    byteLen (dumpMoreItems tl) ≤ byteLen (dumpMoreItems (.cons e tl)) := by
  simp only [dumpMoreItems, byteLen_cons, byteLen_append]
  omega

theorem items_le_dumpArr (e : Json) (tl : JArr) :
    byteLen (dumpVal e ++ dumpMoreItems tl) ≤ byteLen (dumpArr (.cons e tl)) := by
  simp only [dumpArr, byteLen_cons, byteLen_append]
  have h := byteLen_le_indent2 (dumpVal e ++ dumpMoreItems tl)
  simp only [byteLen_append] at h
  omega

theorem val_le_dumpMoreFields (k : List Char) (v : Json) (tl : JObj) :
    byteLen (dumpVal v) ≤ byteLen (dumpMoreFields (.cons k v tl)) := by
  simp only [dumpMoreFields, byteLen_cons, byteLen_append]
  omega

theorem tail_le_dumpMoreFields (k : List Char) (v : Json) (tl : JObj) :
    byteLen (dumpMoreFields tl) ≤ byteLen (dumpMoreFields (.cons k v tl)) := by
  simp only [dumpMoreFields, byteLen_cons, byteLen_append]
  omega

theorem fields_le_dumpObj (k : List Char) (v : Json) (tl : JObj) :
    byteLen (dumpMoreFields tl) ≤ byteLen (dumpObj (.cons k v tl)) := by
  simp only [dumpObj, byteLen_cons, byteLen_append]
  have h := byteLen_le_indent2
    ('"' :: escape k ++ '"' :: ':' :: ' ' :: dumpVal v ++ dumpMoreFields tl)
  simp only [byteLen_cons, byteLen_append] at h
  omega

/-- Any string endpoint in third position contributes at least its length to
the measured document size. -/
theorem size_lb3 (base : ResourceDoc) (a b : Json) (s : List Char) :
    s.length ≤ size_of_eps base [a, b, .str s] := by
  unfold size_of_eps doc_json
  simp only [JArr.ofList]
  calc s.length ≤ byteLen (escape s) := length_le_byteLen_escape s
    _ ≤ byteLen (dumpVal (.str s)) := escape_le_dumpVal_str s
    _ ≤ byteLen (dumpMoreItems (.cons (.str s) .nil)) := head_le_dumpMoreItems _ _
    _ ≤ byteLen (dumpMoreItems (.cons b (.cons (.str s) .nil))) := tail_le_dumpMoreItems _ _
    _ ≤ byteLen (dumpVal a ++ dumpMoreItems (.cons b (.cons (.str s) .nil))) := by
          rw [byteLen_append]; omega
    _ ≤ byteLen (dumpArr (.cons a (.cons b (.cons (.str s) .nil)))) := items_le_dumpArr _ _
    _ = byteLen (dumpVal (.arr (.cons a (.cons b (.cons (.str s) .nil))))) := by
          simp [dumpVal]
    _ ≤ byteLen (dumpMoreFields (.cons "endpoints".data
          (.arr (.cons a (.cons b (.cons (.str s) .nil)))) .nil)) := val_le_dumpMoreFields _ _ _
    _ ≤ byteLen (dumpMoreFields (.cons "resource".data (.str base.resource)
          (.cons "endpoints".data (.arr (.cons a (.cons b (.cons (.str s) .nil)))) .nil))) :=
          tail_le_dumpMoreFields _ _ _
    _ ≤ byteLen (dumpMoreFields (.cons "category".data (.str base.category)
          (.cons "resource".data (.str base.resource)
            (.cons "endpoints".data (.arr (.cons a (.cons b (.cons (.str s) .nil)))) .nil)))) :=
          tail_le_dumpMoreFields _ _ _
    _ ≤ byteLen (dumpObj (.cons "title".data (.str base.title)
          (.cons "category".data (.str base.category)
            (.cons "resource".data (.str base.resource)
              (.cons "endpoints".data (.arr (.cons a (.cons b (.cons (.str s) .nil)))) .nil))))) :=
          fields_le_dumpObj _ _ _
    _ = byteLen (dumpVal (.obj (.cons "title".data (.str base.title)
          (.cons "category".data (.str base.category)
            (.cons "resource".data (.str base.resource)
              (.cons "endpoints".data (.arr (.cons a (.cons b (.cons (.str s) .nil)))) .nil)))))) := by
          simp [dumpVal]

/-- Any lone string endpoint contributes at least its length to the measured
document size. -/
theorem size_lb1 (base : ResourceDoc) (s : List Char) :
    s.length ≤ size_of_eps base [.str s] := by
  unfold size_of_eps doc_json
  simp only [JArr.ofList]
  calc s.length ≤ byteLen (escape s) := length_le_byteLen_escape s
    _ ≤ byteLen (dumpVal (.str s)) := escape_le_dumpVal_str s
    _ ≤ byteLen (dumpVal (.str s) ++ dumpMoreItems .nil) := by rw [byteLen_append]; omega
    _ ≤ byteLen (dumpArr (.cons (.str s) .nil)) := items_le_dumpArr _ _
    _ = byteLen (dumpVal (.arr (.cons (.str s) .nil))) := by simp [dumpVal]
    _ ≤ byteLen (dumpMoreFields (.cons "endpoints".data
          (.arr (.cons (.str s) .nil)) .nil)) := val_le_dumpMoreFields _ _ _
    _ ≤ byteLen (dumpMoreFields (.cons "resource".data (.str base.resource)
          (.cons "endpoints".data (.arr (.cons (.str s) .nil)) .nil))) :=
          tail_le_dumpMoreFields _ _ _
    _ ≤ byteLen (dumpMoreFields (.cons "category".data (.str base.category)
          (.cons "resource".data (.str base.resource)
            (.cons "endpoints".data (.arr (.cons (.str s) .nil)) .nil)))) :=
          tail_le_dumpMoreFields _ _ _
    _ ≤ byteLen (dumpObj (.cons "title".data (.str base.title)
          (.cons "category".data (.str base.category)
            (.cons "resource".data (.str base.resource)
              (.cons "endpoints".data (.arr (.cons (.str s) .nil)) .nil))))) :=
          fields_le_dumpObj _ _ _
    _ = byteLen (dumpVal (.obj (.cons "title".data (.str base.title)
          (.cons "category".data (.str base.category)
            (.cons "resource".data (.str base.resource)
              (.cons "endpoints".data (.arr (.cons (.str s) .nil)) .nil)))))) := by
          simp [dumpVal]

/-! ## Invariants of the greedy split loop -/

/-- Every part the loop ever closes with two or more endpoints measured
within budget stays so through the recursion, and the running chunk obeys
the same bound: an endpoint is only accepted into a nonempty chunk when the
grown chunk still fits. -/
theorem split_loop_sizes (sz : List Json → Nat) :
    ∀ (eps : List Json) (parts : List (List Json)) (chunk : List Json),
      (∀ p ∈ parts, 2 ≤ p.length → sz p ≤ KB_LIMIT) →
      (2 ≤ chunk.length → sz chunk ≤ KB_LIMIT) →
      ∀ p ∈ split_loop sz eps parts chunk, 2 ≤ p.length → sz p ≤ KB_LIMIT := by
  intro eps
  induction eps with
  | nil =>
      intro parts chunk hparts hchunk p hp
      simp only [split_loop] at hp
      by_cases hc : chunk = []
      · rw [if_pos hc] at hp
        exact hparts p hp
      · rw [if_neg hc] at hp
        rcases List.mem_append.mp hp with h | h
        · exact hparts p h
        · simp only [List.mem_singleton] at h
          subst h
          exact hchunk
  | cons ep rest ih =>
      intro parts chunk hparts hchunk p hp
      simp only [split_loop] at hp
      by_cases hcond : KB_LIMIT < sz (chunk ++ [ep]) ∧ chunk ≠ []
      · rw [if_pos hcond] at hp
        refine ih (parts ++ [chunk]) [ep] ?_ ?_ p hp
        · intro q hq
          rcases List.mem_append.mp hq with h | h
          · exact hparts q h
          · simp only [List.mem_singleton] at h
            subst h
            exact hchunk
        · intro h2
          simp at h2
      · rw [if_neg hcond] at hp
        refine ih parts (chunk ++ [ep]) hparts ?_ p hp
        intro h2
        rcases not_and_or.mp hcond with h | h
        · exact le_of_not_lt h
        · exfalso
          rw [not_not.mp h] at h2
          simp at h2

/-- The loop emits every endpoint exactly once, in order: flattening its
result recovers the already-closed parts, the running chunk, and the
remaining input, concatenated. -/
theorem split_loop_join (sz : List Json → Nat) :
    ∀ (eps : List Json) (parts : List (List Json)) (chunk : List Json),
      (split_loop sz eps parts chunk).flatten = parts.flatten ++ chunk ++ eps := by
  intro eps
  induction eps with
  | nil =>
      intro parts chunk
      by_cases hc : chunk = []
      · simp [split_loop, hc]
      · simp [split_loop, hc]
  | cons ep rest ih =>
      intro parts chunk
      simp only [split_loop]
      by_cases hcond : KB_LIMIT < sz (chunk ++ [ep]) ∧ chunk ≠ []
      · rw [if_pos hcond, ih]
        simp
      · rw [if_neg hcond, ih]
        simp

/-- The emitted slices always flatten back to the original endpoint list. -/
theorem part_slices_join (base : ResourceDoc) :
    (part_slices base).flatten = base.endpoints := by
  unfold part_slices
  by_cases h1 : base.endpoints = []
  · simp [h1]
  · rw [if_neg h1]
    by_cases h2 : size_of_eps base base.endpoints ≤ KB_LIMIT
    · simp [h2]
    · rw [if_neg h2]
      unfold split_endpoints
      rw [split_loop_join]
      simp

/-- The unsplit document shape carries no `parts` key. -/
theorem doc_json_no_parts (base : ResourceDoc) (eps : List Json) :
    (doc_json base eps).lookup "parts".data = none := by
  simp only [doc_json, Json.lookup, JObj.lookup]
  rw [if_neg (by decide), if_neg (by decide), if_neg (by decide), if_neg (by decide)]

/-- Every part document carries the `parts` key, holding exactly the shared
sibling filename list. -/
theorem doc_json_parts_lookup (base : ResourceDoc) (eps : List Json) (names : List (List Char)) :
    (doc_json_parts base eps names).lookup "parts".data =
      some (.arr (JArr.ofList (names.map Json.str))) := by
  simp only [doc_json_parts, Json.lookup, JObj.lookup]
  rw [if_neg (by decide), if_neg (by decide), if_neg (by decide), if_neg (by decide)]
  simp

/-- C1: for every resource document, every part slice the Size-Bounded
Splitter emits that contains two or more endpoints measures at or under the
120 KiB budget on the serialized full document shape (the UTF-8 length of
the 2-space-indented, non-ASCII-preserving serialization computed by
`size_of_eps`); only a single-endpoint part may exceed the budget. -/
theorem C1_multi_endpoint_parts_within_budget (base : ResourceDoc) (part : List Json)
    (hmem : part ∈ part_slices base) (h2 : 2 ≤ part.length) :
    size_of_eps base part ≤ KB_LIMIT := by
  unfold part_slices at hmem
  by_cases h1 : base.endpoints = []
  · rw [if_pos h1] at hmem
    simp only [List.mem_singleton] at hmem
    subst hmem
    rw [h1] at h2
    simp at h2
  · rw [if_neg h1] at hmem
    by_cases hs : size_of_eps base base.endpoints ≤ KB_LIMIT
    · rw [if_pos hs] at hmem
      simp only [List.mem_singleton] at hmem
      subst hmem
      exact hs
    · rw [if_neg hs] at hmem
      refine split_loop_sizes (size_of_eps base) base.endpoints [] [] ?_ ?_ part hmem h2
      · intro p hp
        simp at hp
      · intro h
        simp at h

/-- C3: a resource document whose whole serialization fits the budget, or
whose endpoint list is empty, is written as exactly one part, unchanged
(the original document shape under the original filename), and that
document has no `parts` key. -/
theorem C3_within_budget_single_part (base : ResourceDoc) (stem : List Char)
    (h : base.endpoints = [] ∨ size_of_eps base base.endpoints ≤ KB_LIMIT) :
    split_if_large base stem = [(stem ++ ".json".data, doc_json base base.endpoints)] ∧
      part_slices base = [base.endpoints] ∧
      (doc_json base base.endpoints).lookup "parts".data = none := by
  refine ⟨?_, ?_, doc_json_no_parts base base.endpoints⟩
  · unfold split_if_large
    by_cases h1 : base.endpoints = []
    · rw [if_pos h1]
    · rw [if_neg h1, if_pos (h.resolve_left h1)]
  · unfold part_slices
    by_cases h1 : base.endpoints = []
    · rw [if_pos h1]
    · rw [if_neg h1, if_pos (h.resolve_left h1)]

/-- Witness for C3 at a concrete empty-endpoints document. -/
theorem C3_witness :
    (ResourceDoc.mk "t".data "c".data "r".data []).endpoints = [] ∧
      split_if_large (ResourceDoc.mk "t".data "c".data "r".data []) "w".data =
        [("w.json".data, doc_json (ResourceDoc.mk "t".data "c".data "r".data []) [])] :=
  ⟨rfl, by
    have h := (C3_within_budget_single_part (ResourceDoc.mk "t".data "c".data "r".data [])
      "w".data (Or.inl rfl)).1
    simpa using h⟩

/-- C9: the splitter is idempotent over partition boundaries: reassembling
all part slices, in order, into the same document shape and re-splitting
produces the same slices and the same part files. -/
theorem C9_resplit_idempotent (base : ResourceDoc) (stem : List Char) :
    part_slices { base with endpoints := (part_slices base).flatten } = part_slices base ∧
      split_if_large { base with endpoints := (part_slices base).flatten } stem =
        split_if_large base stem := by
  rw [part_slices_join]
  exact ⟨rfl, rfl⟩

/-! ## Concrete oversized documents for the witnesses -/

/-- An endpoint whose serialization alone exceeds the 120 KiB budget: a
string of 123000 `a` characters. -/
def wBig : Json := .str (List.replicate 123000 'a')

/-- A resource document holding only the oversized endpoint. -/
def wDoc1 : ResourceDoc := ⟨"t".data, "c".data, "r".data, [wBig]⟩

/-- A resource document holding two tiny endpoints followed by the oversized
one, so the greedy scan closes a two-endpoint part. -/
def wDoc3 : ResourceDoc := ⟨"t".data, "c".data, "r".data, [.null, .null, wBig]⟩

theorem wBig_size1 : KB_LIMIT < size_of_eps wDoc1 [wBig] := by
  show KB_LIMIT < size_of_eps wDoc1 [Json.str (List.replicate 123000 'a')]
  have h := size_lb1 wDoc1 (List.replicate 123000 'a')
  simp only [List.length_replicate] at h
  have hk : KB_LIMIT = 122880 := rfl
  omega

theorem wBig_size3 : KB_LIMIT < size_of_eps wDoc3 [Json.null, Json.null, wBig] := by
  show KB_LIMIT < size_of_eps wDoc3 [Json.null, Json.null, Json.str (List.replicate 123000 'a')]
  have h := size_lb3 wDoc3 Json.null Json.null (List.replicate 123000 'a')
  simp only [List.length_replicate] at h
  have hk : KB_LIMIT = 122880 := rfl
  omega

theorem wSmall2_size : size_of_eps wDoc3 [Json.null, Json.null] ≤ KB_LIMIT := by decide

theorem split_trace_wDoc3 : split_endpoints wDoc3 = [[Json.null, Json.null], [wBig]] := by
  have h2 : ¬ (KB_LIMIT < size_of_eps wDoc3 ([] ++ [Json.null] ++ [Json.null]) ∧
      ([] ++ [Json.null] : List Json) ≠ []) := by
    intro hand
    exact absurd hand.1 (not_lt.mpr wSmall2_size)
  have h3 : KB_LIMIT < size_of_eps wDoc3 ([] ++ [Json.null] ++ [Json.null] ++ [wBig]) ∧
      ([] ++ [Json.null] ++ [Json.null] : List Json) ≠ [] := ⟨wBig_size3, by simp⟩
  show split_loop (size_of_eps wDoc3) [Json.null, Json.null, wBig] [] [] = _
  rw [split_loop, if_neg (by simp), split_loop, if_neg h2, split_loop, if_pos h3,
    split_loop, if_neg (by simp)]
  rfl

theorem part_slices_wDoc3 : part_slices wDoc3 = [[Json.null, Json.null], [wBig]] := by
  unfold part_slices
  rw [if_neg (by simp [wDoc3]), if_neg (by
    have := wBig_size3
    show ¬ (size_of_eps wDoc3 [Json.null, Json.null, wBig] ≤ KB_LIMIT)
    omega)]
  exact split_trace_wDoc3

/-- Witness for C1: the concrete split of `wDoc3` emits the two-endpoint
part `[null, null]`, and the theorem bounds its measured size. -/
theorem C1_witness :
    [Json.null, Json.null] ∈ part_slices wDoc3 ∧
      2 ≤ ([Json.null, Json.null] : List Json).length ∧
      size_of_eps wDoc3 [Json.null, Json.null] ≤ KB_LIMIT := by
  have hmem : [Json.null, Json.null] ∈ part_slices wDoc3 := by
    rw [part_slices_wDoc3]
    simp
  exact ⟨hmem, by simp,
    C1_multi_endpoint_parts_within_budget wDoc3 [Json.null, Json.null] hmem (by simp)⟩

/-- C2: a single endpoint whose measured size alone exceeds the budget is
still emitted, alone, as exactly one (oversized) part — the splitter does
not fail, drop it or subdivide it — and in general the loop accepts any
endpoint, however large, whenever the current chunk is empty. -/
theorem C2_oversized_singleton_one_part (base : ResourceDoc) (e : Json) (stem : List Char)
    (hE : base.endpoints = [e]) (h : KB_LIMIT < size_of_eps base [e]) :
    part_slices base = [[e]] ∧
      split_if_large base stem =
        [(part_name stem 1, doc_json_parts base [e] [part_name stem 1])] ∧
      ∀ (sz : List Json → Nat) (x : Json) (eps : List Json) (parts : List (List Json)),
        split_loop sz (x :: eps) parts [] = split_loop sz eps parts [x] := by
  have hsz : ¬ (size_of_eps base [e] ≤ KB_LIMIT) := not_le.mpr h
  have htrace : split_endpoints base = [[e]] := by
    unfold split_endpoints
    rw [hE]
    rw [split_loop, if_neg (by simp), split_loop, if_neg (by simp)]
    rfl
  refine ⟨?_, ?_, ?_⟩
  · unfold part_slices
    rw [hE]
    rw [if_neg (by simp), if_neg hsz]
    exact htrace
  · unfold split_if_large
    rw [hE]
    rw [if_neg (by simp), if_neg hsz, htrace]
    rfl
  · intro sz x eps parts
    rw [split_loop, if_neg (by simp)]
    rfl

/-- Witness for C2: the oversized single endpoint of `wDoc1` yields exactly
the one slice `[wBig]`. -/
theorem C2_witness :
    KB_LIMIT < size_of_eps wDoc1 [wBig] ∧ part_slices wDoc1 = [[wBig]] := by
  refine ⟨wBig_size1, ?_⟩
  exact (C2_oversized_singleton_one_part wDoc1 wBig "t".data rfl wBig_size1).1

/-- C4: when a document is split, the slices flatten back to the original
endpoint list in order, each emitted file is the full document shape with
its slice and the shared `parts` list, and every emitted file's name is in
the `parts` list it carries (which is the same complete ordered sibling
list in every part). -/
theorem C4_parts_share_sibling_list (base : ResourceDoc) (stem : List Char)
    (h1 : base.endpoints ≠ []) (h2 : KB_LIMIT < size_of_eps base base.endpoints) :
    let chunks := split_endpoints base
    let names := (List.range chunks.length).map (fun i => part_name stem (i + 1))
    chunks.flatten = base.endpoints ∧
      split_if_large base stem = names.zip (chunks.map (fun eps => doc_json_parts base eps names)) ∧
      ∀ f ∈ split_if_large base stem, f.1 ∈ names ∧
        f.2.lookup "parts".data = some (.arr (JArr.ofList (names.map Json.str))) := by
  intro chunks names
  have hflat : chunks.flatten = base.endpoints := by
    show (split_endpoints base).flatten = base.endpoints
    unfold split_endpoints
    rw [split_loop_join]
    simp
  have heq : split_if_large base stem =
      names.zip (chunks.map (fun eps => doc_json_parts base eps names)) := by
    unfold split_if_large
    rw [if_neg h1, if_neg (not_le.mpr h2)]
  refine ⟨hflat, heq, ?_⟩
  intro f hf
  rw [heq] at hf
  refine ⟨(List.of_mem_zip hf).1, ?_⟩
  have hmap := (List.of_mem_zip hf).2
  rcases List.mem_map.mp hmap with ⟨eps, _, hetype⟩
  rw [← hetype]
  exact doc_json_parts_lookup base eps names

/-- Witness for C4 at the concrete split document `wDoc3`. -/
theorem C4_witness :
    wDoc3.endpoints ≠ [] ∧ KB_LIMIT < size_of_eps wDoc3 wDoc3.endpoints ∧
      (split_endpoints wDoc3).flatten = wDoc3.endpoints := by
  have h1 : wDoc3.endpoints ≠ [] := by simp [wDoc3]
  have h2 : KB_LIMIT < size_of_eps wDoc3 wDoc3.endpoints := wBig_size3
  exact ⟨h1, h2, (C4_parts_share_sibling_list wDoc3 "w".data h1 h2).1⟩

/-! ## The tag filter of `write_json` leaves no tag-like substring behind -/

/-- Any decomposition witnessing a tag match forces a literal `>` in the text. -/
theorem gt_mem_of_decomp {s pre post : List Char} {run : List Char}
    (h : s = pre ++ '<' :: (run ++ '>' :: post)) : '>' ∈ s := by
  subst h
  simp

/-- Text without a literal `>` is tag-free. -/
theorem tag_free_of_no_gt {s : List Char} (h : '>' ∉ s) : tag_free s := by
  intro pre run post hdec
  exact absurd (gt_mem_of_decomp hdec) h

/-- Prepending a character other than `<` preserves tag-freedom. -/
theorem tag_free_cons {t : List Char} {c : Char} (hc : c ≠ '<') (ht : tag_free t) :
    tag_free (c :: t) := by
  intro pre run post hdec
  cases pre with
  | nil =>
      simp only [List.nil_append, List.cons.injEq] at hdec
      exact absurd hdec.1 hc
  | cons p ps =>
      simp only [List.cons_append, List.cons.injEq] at hdec
      exact ht ps run post hdec.2

/-- Prepending the non-matching pair `<>` preserves tag-freedom. -/
theorem tag_free_lt_gt {t : List Char} (ht : tag_free t) : tag_free ('<' :: '>' :: t) := by
  intro pre run post hdec
  cases pre with
  | nil =>
      simp only [List.nil_append, List.cons.injEq] at hdec
      cases run with
      | nil => exact Or.inl rfl
      | cons r rs =>
          refine Or.inr ?_
          have : r = '>' := by
            have := hdec.2
            simp only [List.cons_append, List.cons.injEq] at this
            exact this.1.symm
          simp [this]
  | cons p ps =>
      simp only [List.cons_append, List.cons.injEq] at hdec
      cases ps with
      | nil =>
          exfalso
          rcases hdec with ⟨_, h2⟩
          simp only [List.nil_append, List.cons.injEq] at h2
          exact absurd h2.1.symm (by decide)
      | cons q qs =>
          rcases hdec with ⟨_, h2⟩
          simp only [List.cons_append, List.cons.injEq] at h2
          exact ht qs run post h2.2

/-- The substitution scanner only ever produces tag-free text, whatever the
pending state, as long as the pending run holds no `>` (which the scanner
maintains). -/
theorem strip_tags_go_tag_free :
    ∀ (l : List Char),
      (∀ run, '>' ∉ run → tag_free (strip_tags_go (some run) l)) ∧
        tag_free (strip_tags_go none l) := by
  intro l
  induction l with
  | nil =>
      constructor
      · intro run hrun
        simp only [strip_tags_go]
        exact tag_free_of_no_gt (by
          intro hmem
          rcases List.mem_cons.mp hmem with h | h
          · exact absurd h.symm (by decide)
          · exact hrun h)
      · intro pre run post hdec
        exact absurd hdec (by simp [strip_tags_go])
  | cons c rest ih =>
      constructor
      · intro run hrun
        simp only [strip_tags_go]
        by_cases hc : c = '>'
        · rw [if_pos hc]
          by_cases hr : run = []
          · rw [if_pos hr]
            exact tag_free_lt_gt ih.2
          · rw [if_neg hr]
            exact ih.2
        · rw [if_neg hc]
          refine ih.1 (run ++ [c]) ?_
          intro hmem
          rcases List.mem_append.mp hmem with h | h
          · exact hrun h
          · simp only [List.mem_singleton] at h
            exact hc h.symm
      · simp only [strip_tags_go]
        by_cases hc : c = '<'
        · rw [if_pos hc]
          exact ih.1 [] (by simp)
        · rw [if_neg hc]
          exact tag_free_cons hc ih.2

/-- Text stripped by the scanner is tag-free. -/
theorem strip_tags_tag_free (s : List Char) : tag_free (strip_tags s) :=
  (strip_tags_go_tag_free s).2

/-- Inside a candidate run, the search scanner fires on the closing `>` of a
nonempty `>`-free run. -/
theorem has_tag_go_inside (post : List Char) :
    ∀ (run : List Char) (ne : Bool), run ≠ [] → '>' ∉ run →
      has_tag_go (some ne) (run ++ '>' :: post) = true := by
  intro run
  induction run with
  | nil => intro ne h; exact absurd rfl h
  | cons r rs ih =>
      intro ne _ hmem
      have hr : r ≠ '>' := by
        intro h
        exact hmem (by simp [h])
      simp only [List.cons_append, has_tag_go, if_neg hr]
      cases rs with
      | nil =>
          simp [has_tag_go]
      | cons q qs =>
          refine ih true ?_ ?_
          · simp
          · intro h
            exact hmem (List.mem_cons_of_mem r h)

/-- The search scanner finds a match wherever one exists, from any state. -/
theorem has_tag_go_of_decomp (run post : List Char) (hne : run ≠ []) (hmem : '>' ∉ run) :
    ∀ (pre : List Char) (st : Option Bool),
      has_tag_go st (pre ++ '<' :: (run ++ '>' :: post)) = true := by
  intro pre
  induction pre with
  | nil =>
      intro st
      cases st with
      | none =>
          simp only [List.nil_append, has_tag_go, if_pos rfl]
          exact has_tag_go_inside post run false hne hmem
      | some ne =>
          simp only [List.nil_append, has_tag_go, if_neg (by decide : ('<' : Char) ≠ '>')]
          exact has_tag_go_inside post run true hne hmem
  | cons p ps ih =>
      intro st
      cases st with
      | none =>
          simp only [List.cons_append, has_tag_go]
          by_cases hp : p = '<'
          · rw [if_pos hp]
            exact ih (some false)
          · rw [if_neg hp]
            exact ih none
      | some ne =>
          simp only [List.cons_append, has_tag_go]
          by_cases hp : p = '>'
          · rw [if_pos hp]
            by_cases hne2 : ne
            · simp [hne2]
            · simp only [Bool.not_eq_true] at hne2
              rw [hne2]
              simp only [Bool.false_eq_true, if_false]
              exact ih none
          · rw [if_neg hp]
            exact ih (some true)

/-- If the search reports no match, the text is tag-free. -/
theorem tag_free_of_not_has_tag {s : List Char} (h : has_tag s = false) : tag_free s := by
  intro pre run post hdec
  by_contra hn
  push_neg at hn
  have := has_tag_go_of_decomp run post hn.1 hn.2 pre none
  rw [← hdec] at this
  rw [has_tag] at h
  rw [this] at h
  exact absurd h (by decide)

/-- C10: every document written through the pipeline's `write_json` is free
of tag-like substrings: the written text contains no substring matching
`<[^>]+>` anywhere (the filter, when it fires, removes the pattern from the
whole serialized text, not only inside string values). -/
theorem C10_written_text_tag_free (obj : Json) : tag_free (write_json_text obj) := by
  unfold write_json_text
  by_cases h : has_tag (dumpVal obj)
  · simp only [if_pos h]
    exact strip_tags_tag_free (dumpVal obj)
  · simp only [Bool.not_eq_true] at h
    rw [if_neg (by simp [h])]
    exact tag_free_of_not_has_tag h

/-! ## The HTML element tree of `split_api_docs.py`

`HNode` stands for one node of the tree BeautifulSoup hands the extractor:
either a `NavigableString` or an element with a tag name, an attribute list
and children.  As with `Json`, children sit in a mutual list-like type so
every traversal below is structural. -/

mutual
inductive HNode where
  | text (s : List Char)
  | elem (tag : List Char) (attrs : List (List Char × List Char)) (children : HNodes)
deriving DecidableEq
inductive HNodes where
  | nil
  | cons (hd : HNode) (tl : HNodes)
deriving DecidableEq
end

/-- Convert the child sequence to a list. -/
def HNodes.toList : HNodes → List HNode
  | .nil => []
  | .cons h t => h :: HNodes.toList t

/-- Build a child sequence from a list. -/
def HNodes.ofList : List HNode → HNodes
  | [] => .nil
  | h :: t => .cons h (HNodes.ofList t)

/-- The tag name of an element (empty for a string node). -/
def tagOf : HNode → List Char
  | .text _ => []
  | .elem t _ _ => t

/-- The attribute list of an element. -/
def attrsOf : HNode → List (List Char × List Char)
  | .text _ => []
  | .elem _ a _ => a

/-- The direct children of a node. -/
def childrenOf : HNode → List HNode
  | .text _ => []
  | .elem _ _ ch => ch.toList

/-- Attribute lookup, modelling `node.get(name)` (first match, `None` when
absent). -/
def getAttr (attrs : List (List Char × List Char)) (nm : List Char) : Option (List Char) :=
  (attrs.find? (fun kv => kv.1 == nm)).map Prod.snd

/-- Whether the node is an element with exactly this tag name. -/
def tagIs (nm : List Char) (n : HNode) : Bool :=
  match n with
  | .elem t _ _ => t == nm
  | _ => false

mutual
/-- The `NavigableString` payloads under a node, in document order
(BeautifulSoup `.strings`); a string node yields itself. -/
def strings : HNode → List (List Char)
  | .text s => [s]
  | .elem _ _ ch => stringsList ch
termination_by structural n => n
/-- Strings of a child sequence. -/
def stringsList : HNodes → List (List Char)
  | .nil => []
  | .cons h t => strings h ++ stringsList t
termination_by structural l => l
end

/-- Model of `node.get_text()`: descendant strings concatenated. -/
def get_text (n : HNode) : List Char := (strings n).flatten

/-- Model of `node.get_text("", strip=True)`: each string stripped, empty
results skipped, the rest concatenated. -/
def get_text_strip (n : HNode) : List Char :=
  (((strings n).map pyStrip).filter (· ≠ [])).flatten

/-- Model of `el.get_text("\n", strip=False)`, used for code blocks. -/
def get_text_nl (n : HNode) : List Char := List.intercalate "\n".data (strings n)

mutual
/-- All descendants of a node in document (pre-)order, modelling the search
space of BeautifulSoup `find` / `find_all`. -/
def descendants : HNode → List HNode
  | .text _ => []
  | .elem _ _ ch => desc_list ch
termination_by structural n => n
/-- Descendants contributed by a child sequence. -/
def desc_list : HNodes → List HNode
  | .nil => []
  | .cons h t => h :: (descendants h ++ desc_list t)
termination_by structural l => l
end

/-- Model of `el.find(...)`: the first descendant satisfying the check. -/
def find_desc (p : HNode → Bool) (n : HNode) : Option HNode :=
  ((descendants n).filter p).head?

/-- The backtick character used by `_node_to_text` around inline code. -/
def backquoteChar : Char := Char.ofNat 96

mutual
/-- Model of `_node_to_text` (`split_api_docs.py` lines 21-58): plain text of
a node, with links rendered `text (url)`, inline code wrapped in backticks,
`br` as a newline, other containers recursing and joining with spaces, and
whitespace collapsed. -/
def node_to_text : HNode → List Char
  | .text s => collapse_ws s
  | .elem tag attrs ch =>
      let n := HNode.elem tag attrs ch
      let name := lowerStr tag
      if name = "a".data then
        let text := collapse_ws (get_text_strip n)
        let href := pyStrip ((getAttr attrs "href".data).getD [])
        if href ≠ [] then
          if text ≠ [] ∧ text ≠ href then collapse_ws (text ++ ' ' :: '(' :: (href ++ [')']))
          else href
        else text
      else if name = "code".data ∨ name = "kbd".data ∨ name = "samp".data then
        backquoteChar :: collapse_ws (get_text n) ++ [backquoteChar]
      else if name = "br".data then ['\n']
      else collapse_ws (List.intercalate [' '] (node_pieces ch))
termination_by structural n => n
/-- Texts of the children of a container, in order. -/
def node_pieces : HNodes → List (List Char)
  | .nil => []
  | .cons h t => node_to_text h :: node_pieces t
termination_by structural l => l
end

/-- One inline run: its text, an optional link target, and an inline-code
marker; `link = none` and `code = false` stand for the keys the Python dict
drops as falsy. -/
structure Run where
  text : List Char
  link : Option (List Char)
  code : Bool
deriving DecidableEq

/-- Model of the `add_text` helper inside `_inline_runs`: drop empty text,
store the link only when present and nonempty. -/
def addText (text : List Char) (link : Option (List Char)) (code : Bool) : List Run :=
  if text = [] then []
  else [⟨text, match link with | some l => if l = [] then none else some l | none => none, code⟩]

mutual
/-- Model of `_inline_runs` (`split_api_docs.py` lines 60-93): runs of a
node's children, preserving links and code spans, recursing through other
inline containers. -/
def inline_runs : HNode → List Run
  | .text _ => []
  | .elem _ _ ch => inline_runs_children ch
/-- Runs contributed by one child. -/
def inline_runs_one : HNode → List Run
  | .text s => addText (collapse_ws s) none false
  | .elem tag attrs ch =>
      let child := HNode.elem tag attrs ch
      let name := lowerStr tag
      if name = "a".data then
        let text := collapse_ws (get_text_strip child)
        let href := pyStrip ((getAttr attrs "href".data).getD [])
        addText (if text = [] then href else text) (if href = [] then none else some href) false
      else if name = "code".data ∨ name = "kbd".data ∨ name = "samp".data then
        addText (collapse_ws (get_text child)) none true
      else if name = "br".data then addText ['\n'] none false
      else inline_runs_children ch
termination_by structural n => n
/-- Runs of a child sequence, concatenated in order. -/
def inline_runs_children : HNodes → List Run
  | .nil => []
  | .cons h t => inline_runs_one h ++ inline_runs_children t
termination_by structural l => l
end

/-! ## Blocks and the extractor dispatch -/

/-- Model of `_slugify` (`split_api_docs.py` lines 9-16): strip, turn runs
of whitespace and `/` into one hyphen, lowercase, drop characters outside
`[a-z0-9-]`, collapse hyphen runs.  No trimming of leading or trailing
hyphens happens. -/
def _slugify (s : List Char) : List Char :=
  if s = [] then []
  else
    let s1 := subRuns (fun c => isSpace c || c == '/') '-' (pyStrip s)
    let s2 := lowerStr s1
    let s3 := s2.filter (fun c => (decide ('a' ≤ c) && decide (c ≤ 'z')) || c.isDigit || c == '-')
    subRuns (fun c => c == '-') '-' s3

/-- A sub-item of a nested (depth-2) list: text and runs only. -/
structure SubItem where
  text : List Char
  runs : List Run
deriving DecidableEq

/-- A nested (depth-2) list kept as a list item's child. -/
structure SubList where
  style : List Char
  start : Option Int
  items : List SubItem
deriving DecidableEq

/-- A top-level list item: text, runs, and the nested lists it contains
(`none` when there are none, as the Python dict stores `None`). -/
structure Item where
  text : List Char
  runs : List Run
  children : Option (List SubList)
deriving DecidableEq

/-- The tagged block variants `html_to_blocks` produces. -/
inductive Block where
  | heading (level : Nat) (text slug id : List Char)
  | paragraph (text : List Char) (runs : List Run)
  | callout (variant : List Char) (text : List Char) (runs : List Run)
  | list (style : List Char) (start : Option Int) (items : List Item)
  | code (text : List Char) (lang : Option (List Char))
  | blockquote (text : List Char)
  | table (header : List (List Char)) (rows : List (List (List Char))) (align : List (List Char))
  | separator
deriving DecidableEq

/-- An emitted block together with the `block_id` and `order` fields
`push_block` assigns. -/
structure EBlock where
  block : Block
  block_id : List Char
  order : Nat
deriving DecidableEq

/-- Python `int(s)` on an attribute value: optional surrounding whitespace,
optional sign, one or more digits; anything else raises (modelled `none`). -/
def pyIntParse (s : List Char) : Option Int :=
  let core : List Char → Option Int := fun ds =>
    if ds ≠ [] ∧ ds.all Char.isDigit then
      some (ds.foldl (fun a c => 10 * a + ((c.toNat : Int) - 48)) 0)
    else none
  match pyStrip s with
  | '-' :: ds => (core ds).map (fun v => -v)
  | '+' :: ds => core ds
  | ds => core ds

/-- Characters the language token of a `language-<token>` class may hold
(the regex class `[a-z0-9_+-]`). -/
def isLangChar (c : Char) : Bool :=
  (decide ('a' ≤ c) && decide (c ≤ 'z')) || c.isDigit || c == '_' || c == '+' || c == '-'

/-- Model of `re.match(r"language-([a-z0-9_+-]+)", c)` on one class token:
the token part is the maximal allowed run after the `language-` head, and
the match requires it nonempty. -/
def matchLang (tok : List Char) : Option (List Char) :=
  if "language-".data.isPrefixOf tok then
    let run := (tok.drop 9).takeWhile isLangChar
    if run = [] then none else some run
  else none

/-- Class-attribute tokens, as BeautifulSoup splits the `class` attribute on
whitespace. -/
def classTokens (v : List Char) : List (List Char) :=
  (v.splitOnP (fun c => isSpace c)).filter (· ≠ [])

/-- Whether a node is an element named `ul` or `ol` (the raw-name membership
test `getattr(ch, "name", None) in ("ul", "ol")`). -/
def is_ul_ol (n : HNode) : Bool :=
  match n with
  | .elem t _ _ => t == "ul".data || t == "ol".data
  | _ => false

/-- Model of the sub-item extraction (lines 263-272): the sub-item text and
runs come from the sub-`li`'s children with any `ul`/`ol` child skipped
(depth-3 lists are dropped here), gathered into a fresh `span`. -/
def sub_item_of (subLi : HNode) : SubItem :=
  let container := HNode.elem "span".data [] (HNodes.ofList
    ((childrenOf subLi).filter (fun sn => !is_ul_ol sn)))
  ⟨node_to_text container, inline_runs container⟩

/-- Model of the nested-list serialization (lines 253-273): style from the
lowered tag, `start` parsed from the attribute on `ol`, items from the
direct `li` children. -/
def sub_list_of (L : HNode) : SubList :=
  let nm := lowerStr (tagOf L)
  { style := if nm = "ul".data then "unordered".data else "ordered".data
    start := if nm = "ol".data then (getAttr (attrsOf L) "start".data).bind pyIntParse else none
    items := ((childrenOf L).filter (tagIs "li".data)).map sub_item_of }

/-- Model of the item extraction (lines 237-274): direct children split into
nested lists and the rest; the rest, in a fresh `span`, gives text and runs;
each nested list becomes a child block; `children` is `None` when empty. -/
def item_of (li : HNode) : Item :=
  let parts := (childrenOf li).partition is_ul_ol
  let container := HNode.elem "span".data [] (HNodes.ofList parts.2)
  let childBlocks := parts.1.map sub_list_of
  ⟨node_to_text container, inline_runs container,
    if childBlocks = [] then none else some childBlocks⟩

/-- Level of a heading tag handled by the extractor (`h2`-`h6`; `h1` is a
section boundary and never reaches this layer). -/
def head_level (nm : List Char) : Option Nat :=
  if nm = "h2".data then some 2
  else if nm = "h3".data then some 3
  else if nm = "h4".data then some 4
  else if nm = "h5".data then some 5
  else if nm = "h6".data then some 6
  else none

/-- The fixed callout prefix table of the classifier, in the priority order
the source tests them: `note:`, `note :`, `warning:`, `tip:`, `caution:`. -/
def callout_rules : List (List Char × List Char) :=
  [("note:".data, "note".data), ("note :".data, "note".data),
   ("warning:".data, "warning".data), ("tip:".data, "tip".data),
   ("caution:".data, "caution".data)]

/-- Strip a matched callout head from the paragraph text:
`text[len(p):].lstrip()`. -/
def strip_callout (pfx : List Char) (text : List Char) : List Char :=
  pyLstrip (text.drop pfx.length)

/-- Strip the matched callout head from the first run only when that run's
own lowered text starts with it (lines 220-221). -/
def strip_runs (pfx : List Char) : List Run → List Run
  | [] => []
  | r :: rs =>
      if pfx.isPrefixOf (lowerStr r.text) then
        ⟨pyLstrip (r.text.drop pfx.length), r.link, r.code⟩ :: rs
      else r :: rs

/-- Model of `handle_element` (lines 204-318): the block one top-level
element contributes, `none` when it is dropped.  Dispatch is on the lowered
tag name, in the source's branch order. -/
def handle_element : HNode → Option Block
  | .text _ => none
  | .elem tag attrs ch =>
      let el := HNode.elem tag attrs ch
      let name := lowerStr tag
      match head_level name with
      | some lvl =>
          let text := node_to_text el
          some (.heading lvl text (_slugify text) (_slugify text))
      | none =>
          if name = "p".data then
            let text := node_to_text el
            let runs := inline_runs el
            match callout_rules.find? (fun pv => pv.1.isPrefixOf (lowerStr text)) with
            | some pv => some (.callout pv.2 (strip_callout pv.1 text) (strip_runs pv.1 runs))
            | none => if text ≠ [] then some (.paragraph text runs) else none
          else if name = "ul".data ∨ name = "ol".data then
            let style := if name = "ul".data then "unordered".data else "ordered".data
            let start := if name = "ol".data then (getAttr attrs "start".data).bind pyIntParse
              else none
            let items := (ch.toList.filter (tagIs "li".data)).map item_of
            some (.list style start items)
          else if name = "pre".data then
            let lang := match find_desc (tagIs "code".data) el with
              | some codeEl =>
                  (getAttr (attrsOf codeEl) "class".data).bind
                    (fun v => (classTokens v).findSome? matchLang)
              | none => none
            some (.code (rstripNl (get_text_nl el)) lang)
          else if name = "blockquote".data then
            let text := node_to_text el
            if text ≠ [] then some (.blockquote text) else none
          else if name = "table".data then
            let header := match find_desc (tagIs "thead".data) el with
              | some thead => ((descendants thead).filter (tagIs "th".data)).map node_to_text
              | none => []
            let rows := ((descendants el).filter (tagIs "tr".data)).filterMap (fun tr =>
              let cells := (descendants tr).filter
                (fun c => tagIs "th".data c || tagIs "td".data c)
              if cells = [] then none else some (cells.map node_to_text))
            let align := ((descendants el).filter (tagIs "th".data)).map (fun th =>
              let style := lowerStr ((getAttr (attrsOf th) "style".data).getD [])
              if "text-align:center".data <:+: style then "center".data
              else if "text-align:right".data <:+: style then "right".data
              else "left".data)
            some (.table header rows align)
          else if name = "hr".data then some .separator
          else none

/-- The type tag `push_block` reads from the block dict. -/
def block_type : Block → List Char
  | .heading .. => "heading".data
  | .paragraph .. => "paragraph".data
  | .callout .. => "callout".data
  | .list .. => "list".data
  | .code .. => "code".data
  | .blockquote .. => "blockquote".data
  | .table .. => "table".data
  | .separator => "separator".data

/-- The `block_id` `push_block` assigns (lines 193-199): headings get
`h<level>-<slug of text>`, every other block gets `<type>-<order>`. -/
def mk_block_id (b : Block) (order : Nat) : List Char :=
  match b with
  | .heading lvl text _ _ => 'h' :: (decRepr lvl ++ '-' :: _slugify text)
  | _ => block_type b ++ '-' :: decRepr order

/-- The walk over top-level nodes with the running order counter: string
nodes are skipped; each handled element is pushed with its id and order,
and the counter advances only on a push. -/
def blocks_go : List HNode → Nat → List EBlock
  | [], _ => []
  | n :: rest, order =>
      match handle_element n with
      | none => blocks_go rest order
      | some b => ⟨b, mk_block_id b order, order⟩ :: blocks_go rest (order + 1)

/-- Model of `html_to_blocks` (lines 170-327) over a parsed fragment: the
block sequence of the fragment's top-level nodes, with `order` starting
at 1. -/
def html_to_blocks (fragment : List HNode) : List EBlock := blocks_go fragment 1

/-- Python string `or`: the left operand unless it is empty. -/
def pyOrStr (a b : List Char) : List Char := if a = [] then b else a

/-- Model of the section slug selection of `extract_sections_from_html`
(line 150): `h1.get("id") or _slugify(h1.get_text()) or f"section-<idx+1>"`,
with Python truthiness (an absent и an empty attribute both fall through). -/
def section_slug (h1 : HNode) (idx : Nat) : List Char :=
  pyOrStr (pyOrStr ((getAttr (attrsOf h1) "id".data).getD []) (_slugify (get_text h1)))
    ("section-".data ++ decRepr (idx + 1))

/-- Modelled from the spec for comparison with the source: the slugification
pipeline exactly as 4.4 words it, including the final trim of leading and
trailing hyphens that the source `_slugify` does not perform. -/
def spec_slugify (s : List Char) : List Char :=
  let s1 := subRuns (fun c => isSpace c || c == '/') '-' (lowerStr (pyStrip s))
  let s2 := s1.filter (fun c => (decide ('a' ≤ c) && decide (c ≤ 'z')) || c.isDigit || c == '-')
  let s3 := subRuns (fun c => c == '-') '-' s2
  (((s3.dropWhile (· == '-')).reverse.dropWhile (· == '-')).reverse)

/-! ## C8: slug selection and slugification -/

/-- Output characters of `subRuns` come from the input or are the
replacement character. -/
theorem subRunsGo_mem (p : Char → Bool) (r : Char) :
    ∀ (l : List Char) (b : Bool) (c : Char), c ∈ subRunsGo p r b l → c = r ∨ c ∈ l := by
  intro l
  induction l with
  | nil => intro b c h; simp [subRunsGo] at h
  | cons x t ih =>
      intro b c h
      simp only [subRunsGo] at h
      by_cases hp : p x
      · rw [if_pos hp] at h
        by_cases hb : b
        · rw [if_pos hb] at h
          rcases ih true c h with h2 | h2
          · exact Or.inl h2
          · exact Or.inr (List.mem_cons_of_mem x h2)
        · rw [if_neg hb] at h
          rcases List.mem_cons.mp h with h2 | h2
          · exact Or.inl h2
          · rcases ih true c h2 with h3 | h3
            · exact Or.inl h3
            · exact Or.inr (List.mem_cons_of_mem x h3)
      · rw [if_neg hp] at h
        rcases List.mem_cons.mp h with h2 | h2
        · exact Or.inr (by simp [h2])
        · rcases ih false c h2 with h3 | h3
          · exact Or.inl h3
          · exact Or.inr (List.mem_cons_of_mem x h3)

/-- After collapsing with a replacement that itself matches `p`, no two
adjacent output characters both match `p`; moreover in a run the next
emitted character never matches `p`. -/
theorem subRunsGo_chain (p : Char → Bool) (r : Char) :
    ∀ (l : List Char) (b : Bool),
      List.Chain' (fun a c => ¬(p a = true ∧ p c = true)) (subRunsGo p r b l) ∧
        (b = true → ∀ h, (subRunsGo p r b l).head? = some h → p h = false) := by
  intro l
  induction l with
  | nil =>
      intro b
      refine ⟨by simp [subRunsGo], ?_⟩
      intro _ h hh
      simp [subRunsGo] at hh
  | cons x t ih =>
      intro b
      constructor
      · simp only [subRunsGo]
        by_cases hp : p x
        · rw [if_pos hp]
          by_cases hb : b
          · rw [if_pos hb]
            exact (ih true).1
          · rw [if_neg hb]
            rw [List.chain'_cons']
            refine ⟨?_, (ih true).1⟩
            intro y hy
            intro hcon
            have := (ih true).2 rfl y hy
            rw [this] at hcon
            exact absurd hcon.2 (by simp)
        · rw [if_neg hp]
          rw [List.chain'_cons']
          refine ⟨?_, (ih false).1⟩
          intro y hy hcon
          exact absurd hcon.1 (by simp [hp])
      · intro hb h hh
        simp only [subRunsGo] at hh
        by_cases hp : p x
        · rw [if_pos hp, hb] at hh
          simp only [if_pos rfl] at hh
          exact (ih true).2 rfl h hh
        · rw [if_neg hp] at hh
          simp only [List.head?_cons, Option.some.injEq] at hh
          subst hh
          simp [hp]

/-- A character passing `Char.isDigit` lies in the ASCII digit range. -/
theorem isDigit_range {c : Char} (h : c.isDigit = true) : '0' ≤ c ∧ c ≤ '9' := by
  simp only [Char.isDigit, ge_iff_le, Bool.and_eq_true, decide_eq_true_eq] at h
  exact ⟨h.1, h.2⟩

/-- Every character of a slug is a lowercase letter, a digit, or a hyphen. -/
theorem _slugify_chars (s : List Char) :
    ∀ c ∈ _slugify s, ('a' ≤ c ∧ c ≤ 'z') ∨ ('0' ≤ c ∧ c ≤ '9') ∨ c = '-' := by
  intro c hc
  unfold _slugify at hc
  by_cases hs : s = []
  · rw [if_pos hs] at hc
    simp at hc
  · rw [if_neg hs] at hc
    simp only at hc
    rcases subRunsGo_mem _ '-' _ false c hc with h | h
    · exact Or.inr (Or.inr h)
    · have hmem := List.of_mem_filter h
      simp only [Bool.or_eq_true, Bool.and_eq_true, decide_eq_true_eq, beq_iff_eq] at hmem
      rcases hmem with (⟨h1, h2⟩ | hd) | h3
      · exact Or.inl ⟨h1, h2⟩
      · exact Or.inr (Or.inl (isDigit_range hd))
      · exact Or.inr (Or.inr h3)

/-- No two adjacent hyphens survive in a slug. -/
theorem _slugify_no_double_hyphen (s : List Char) :
    List.Chain' (fun a c => ¬(a = '-' ∧ c = '-')) (_slugify s) := by
  unfold _slugify
  by_cases hs : s = []
  · rw [if_pos hs]
    simp
  · rw [if_neg hs]
    simp only [subRuns]
    refine List.Chain'.imp ?_ ((subRunsGo_chain (fun c => c == '-') '-' _ false).1)
    intro a b hab hcon
    exact hab (by simp [hcon.1, hcon.2])

/-- Counterexample to C8 as stated: slugification does not trim trailing
(or leading) hyphens — the section splitter slugifies `Intro-` to `intro-`,
while the claimed pipeline (spec_slugify) yields `intro`. -/
theorem C8_counterexample :
    _slugify "Intro-".data = "intro-".data ∧ spec_slugify "Intro-".data = "intro".data ∧
      _slugify "Intro-".data ≠ spec_slugify "Intro-".data := by
  refine ⟨by decide, by decide, by decide⟩

/-- C8 (amended): the slug is the `h1`'s id attribute when present and
nonempty, else the slugified title when that is nonempty, else
`section-<ordinal>` (1-based); slugification lowercases, collapses
whitespace/`/` runs and repeated hyphens into single hyphens and removes
other characters outside `[a-z0-9-]`, but does not trim leading or trailing
hyphens. -/
theorem C8_slug_selection (h1 : HNode) (idx : Nat) :
    (∀ v, getAttr (attrsOf h1) "id".data = some v → v ≠ [] → section_slug h1 idx = v) ∧
    ((getAttr (attrsOf h1) "id".data = none ∨ getAttr (attrsOf h1) "id".data = some []) →
      _slugify (get_text h1) ≠ [] → section_slug h1 idx = _slugify (get_text h1)) ∧
    ((getAttr (attrsOf h1) "id".data = none ∨ getAttr (attrsOf h1) "id".data = some []) →
      _slugify (get_text h1) = [] →
      section_slug h1 idx = "section-".data ++ decRepr (idx + 1)) ∧
    (∀ s, ∀ c ∈ _slugify s, ('a' ≤ c ∧ c ≤ 'z') ∨ ('0' ≤ c ∧ c ≤ '9') ∨ c = '-') ∧
    (∀ s, List.Chain' (fun a c => ¬(a = '-' ∧ c = '-')) (_slugify s)) := by
  refine ⟨?_, ?_, ?_, _slugify_chars, _slugify_no_double_hyphen⟩
  · intro v hv hne
    unfold section_slug pyOrStr
    simp [hv, hne]
  · intro hid hne
    unfold section_slug pyOrStr
    rcases hid with h | h
    · simp [h, hne]
    · simp [h, hne]
  · intro hid hsl
    unfold section_slug pyOrStr
    rcases hid with h | h
    · simp [h, hsl]
    · simp [h, hsl]

/-- Witness for C8 at a concrete `h1` carrying an id attribute. -/
theorem C8_witness :
    getAttr (attrsOf (HNode.elem "h1".data [("id".data, "pagination".data)]
      (.cons (.text "Pagination".data) .nil))) "id".data = some "pagination".data ∧
    section_slug (HNode.elem "h1".data [("id".data, "pagination".data)]
      (.cons (.text "Pagination".data) .nil)) 0 = "pagination".data := by
  refine ⟨by decide, ?_⟩
  exact (C8_slug_selection (HNode.elem "h1".data [("id".data, "pagination".data)]
    (.cons (.text "Pagination".data) .nil)) 0).1 "pagination".data (by decide) (by decide)

/-! ## C6: the warning callout -/

/-- A prefix check fails as soon as the heads differ. -/
theorem isPrefixOf_false_of_head {a b : Char} (hne : a ≠ b) (as bs : List Char) :
    (a :: as).isPrefixOf (b :: bs) = false := by
  simp [List.isPrefixOf, hne]

/-- C6: a paragraph whose plain text, lowered, starts with `warning:`
becomes a `Callout` with variant `warning`; the prefix (8 characters) is
stripped from the text with leading whitespace trimmed, and from the first
run only when that run's lowered text starts with the same prefix; the
classifier tests the five prefixes in the order `note:`, `note :`,
`warning:`, `tip:`, `caution:`, first match winning (no earlier prefix can
match a `warning:` text). -/
theorem C6_warning_callout (attrs : List (List Char × List Char)) (ch : HNodes)
    (h : "warning:".data.isPrefixOf
      (lowerStr (node_to_text (HNode.elem "p".data attrs ch))) = true) :
    handle_element (HNode.elem "p".data attrs ch) =
      some (.callout "warning".data
        (pyLstrip ((node_to_text (HNode.elem "p".data attrs ch)).drop 8))
        (strip_runs "warning:".data (inline_runs (HNode.elem "p".data attrs ch)))) ∧
    callout_rules = [("note:".data, "note".data), ("note :".data, "note".data),
      ("warning:".data, "warning".data), ("tip:".data, "tip".data),
      ("caution:".data, "caution".data)] := by
  refine ⟨?_, rfl⟩
  obtain ⟨rest, hrest⟩ := List.isPrefixOf_iff_prefix.mp h
  have hnote1 : "note:".data.isPrefixOf
      (lowerStr (node_to_text (HNode.elem "p".data attrs ch))) = false := by
    rw [← hrest]
    exact isPrefixOf_false_of_head (by decide) _ _
  have hnote2 : "note :".data.isPrefixOf
      (lowerStr (node_to_text (HNode.elem "p".data attrs ch))) = false := by
    rw [← hrest]
    exact isPrefixOf_false_of_head (by decide) _ _
  have hname : lowerStr "p".data = "p".data := by decide
  have hhl : head_level "p".data = none := by decide
  simp only [handle_element, hname, hhl, if_pos, callout_rules, List.find?, hnote1, hnote2, h]
  rfl

/-- Witness for C6 at a concrete warning paragraph. -/
theorem C6_witness :
    "warning:".data.isPrefixOf (lowerStr (node_to_text
      (HNode.elem "p".data [] (.cons (.text "Warning: hot".data) .nil)))) = true ∧
    handle_element (HNode.elem "p".data [] (.cons (.text "Warning: hot".data) .nil)) =
      some (.callout "warning".data "hot".data [⟨"hot".data, none, false⟩]) := by
  refine ⟨by decide, ?_⟩
  have hc := (C6_warning_callout [] (.cons (.text "Warning: hot".data) .nil) (by decide)).1
  rw [hc]
  decide

/-! ## C7: one level of list nesting kept, deeper levels discarded

The erasure functions below delete exactly the depth-3 lists (a `ul`/`ol`
child of a sub-`li` of a nested list): the theorem shows the extractor's
output does not change when they run, so depth-3 lists leave no trace. -/

/-- Drop the `ul`/`ol` children of a sub-`li` (the depth-3 lists). -/
def erase_in_sub (e : HNode) : HNode :=
  match e with
  | .elem t a ch =>
      if t == "li".data then .elem t a (HNodes.ofList (ch.toList.filter (fun x => !is_ul_ol x)))
      else .elem t a ch
  | x => x

/-- Inside a list item, rewrite each nested list by erasing the depth-3
lists inside its items. -/
def erase_in_li (d : HNode) : HNode :=
  match d with
  | .elem t a ch =>
      if is_ul_ol (.elem t a ch) then .elem t a (HNodes.ofList (ch.toList.map erase_in_sub))
      else .elem t a ch
  | x => x

/-- Rewrite one child of a top-level list: inside each `li`, erase the
depth-3 lists of its nested lists. -/
def erase_depth3 (c : HNode) : HNode :=
  match c with
  | .elem t a ch =>
      if t == "li".data then .elem t a (HNodes.ofList (ch.toList.map erase_in_li))
      else .elem t a ch
  | x => x

theorem toList_ofList (l : List HNode) : (HNodes.ofList l).toList = l := by
  induction l with
  | nil => rfl
  | cons h t ih => simp [HNodes.ofList, HNodes.toList, ih]

theorem tagIs_erase_in_sub (nm : List Char) (x : HNode) :
    tagIs nm (erase_in_sub x) = tagIs nm x := by
  cases x with
  | text _ => rfl
  | elem t a ch =>
      simp only [erase_in_sub]
      by_cases h : (t == "li".data) = true
      · rw [if_pos h]; rfl
      · rw [if_neg h]

theorem is_ul_ol_erase_in_li (x : HNode) : is_ul_ol (erase_in_li x) = is_ul_ol x := by
  cases x with
  | text _ => rfl
  | elem t a ch =>
      simp only [erase_in_li]
      by_cases h : is_ul_ol (.elem t a ch) = true
      · rw [if_pos h]
        simp [is_ul_ol]
      · rw [if_neg h]

theorem tagIs_erase_depth3 (nm : List Char) (x : HNode) :
    tagIs nm (erase_depth3 x) = tagIs nm x := by
  cases x with
  | text _ => rfl
  | elem t a ch =>
      simp only [erase_depth3]
      by_cases h : (t == "li".data) = true
      · rw [if_pos h]; rfl
      · rw [if_neg h]

theorem erase_in_li_id {x : HNode} (h : is_ul_ol x = false) : erase_in_li x = x := by
  cases x with
  | text _ => rfl
  | elem t a ch =>
      simp only [erase_in_li]
      rw [if_neg (by simp [h])]

theorem sub_item_of_erase {x : HNode} (h : tagIs "li".data x = true) :
    sub_item_of (erase_in_sub x) = sub_item_of x := by
  cases x with
  | text _ => simp [tagIs] at h
  | elem t a ch =>
      simp only [erase_in_sub]
      rw [if_pos (by simpa [tagIs] using h)]
      unfold sub_item_of
      simp only [childrenOf, toList_ofList, List.filter_filter]
      have hfil : ch.toList.filter (fun a => !is_ul_ol a && !is_ul_ol a) =
          ch.toList.filter (fun sn => !is_ul_ol sn) := by
        refine List.filter_congr ?_
        intro y _
        cases hy : is_ul_ol y <;> simp [hy]
      rw [hfil]

theorem sub_list_of_erase {L : HNode} (h : is_ul_ol L = true) :
    sub_list_of (erase_in_li L) = sub_list_of L := by
  cases L with
  | text _ => simp [is_ul_ol] at h
  | elem t a ch =>
      simp only [erase_in_li]
      rw [if_pos h]
      unfold sub_list_of
      simp only [tagOf, attrsOf, childrenOf, toList_ofList]
      have hfil : (ch.toList.map erase_in_sub).filter (tagIs "li".data) =
          (ch.toList.filter (tagIs "li".data)).map erase_in_sub := by
        rw [List.filter_map]
        congr 1
        refine List.filter_congr ?_
        intro y _
        exact tagIs_erase_in_sub "li".data y
      rw [hfil, List.map_map]
      congr 1
      refine List.map_congr_left ?_
      intro y hy
      exact sub_item_of_erase (List.of_mem_filter hy)

theorem item_of_erase {x : HNode} (h : tagIs "li".data x = true) :
    item_of (erase_depth3 x) = item_of x := by
  cases x with
  | text _ => simp [tagIs] at h
  | elem t a ch =>
      simp only [erase_depth3]
      rw [if_pos (by simpa [tagIs] using h)]
      unfold item_of
      simp only [childrenOf, toList_ofList, List.partition_eq_filter_filter]
      have h1 : (ch.toList.map erase_in_li).filter is_ul_ol =
          (ch.toList.filter is_ul_ol).map erase_in_li := by
        rw [List.filter_map]
        congr 1
        exact List.filter_congr (fun y _ => is_ul_ol_erase_in_li y)
      have h2 : (ch.toList.map erase_in_li).filter (not ∘ is_ul_ol) =
          ch.toList.filter (not ∘ is_ul_ol) := by
        rw [List.filter_map]
        have : ch.toList.filter ((not ∘ is_ul_ol) ∘ erase_in_li) =
            ch.toList.filter (not ∘ is_ul_ol) := by
          exact List.filter_congr (fun y _ => by
            simp [Function.comp, is_ul_ol_erase_in_li y])
        rw [this]
        have hid : (ch.toList.filter (not ∘ is_ul_ol)).map erase_in_li =
            (ch.toList.filter (not ∘ is_ul_ol)).map id := by
          refine List.map_congr_left ?_
          intro y hy
          have hmem := List.of_mem_filter hy
          simp only [Function.comp, Bool.not_eq_true'] at hmem
          exact erase_in_li_id hmem
        rw [hid, List.map_id]
      have h3 : ((ch.toList.map erase_in_li).filter is_ul_ol).map sub_list_of =
          (ch.toList.filter is_ul_ol).map sub_list_of := by
        rw [h1, List.map_map]
        refine List.map_congr_left ?_
        intro y hy
        exact sub_list_of_erase (List.of_mem_filter hy)
      rw [h2, h3]

/-- The list-branch output of the dispatcher for a `ul` element. -/
theorem handle_ul (attrs : List (List Char × List Char)) (ch : HNodes) :
    handle_element (HNode.elem "ul".data attrs ch) =
      some (.list "unordered".data none ((ch.toList.filter (tagIs "li".data)).map item_of)) := by
  have hname : lowerStr "ul".data = "ul".data := by decide
  have hhl : head_level "ul".data = none := by decide
  simp [handle_element, hname, hhl]

/-- The list-branch output of the dispatcher for an `ol` element. -/
theorem handle_ol (attrs : List (List Char × List Char)) (ch : HNodes) :
    handle_element (HNode.elem "ol".data attrs ch) =
      some (.list "ordered".data ((getAttr attrs "start".data).bind pyIntParse)
        ((ch.toList.filter (tagIs "li".data)).map item_of)) := by
  have hname : lowerStr "ol".data = "ol".data := by decide
  have hhl : head_level "ol".data = none := by decide
  simp [handle_element, hname, hhl]

/-- The item lists of the original and the depth-3-erased children agree. -/
theorem items_erase (l : List HNode) :
    ((l.map erase_depth3).filter (tagIs "li".data)).map item_of =
      (l.filter (tagIs "li".data)).map item_of := by
  rw [List.filter_map]
  have : l.filter (tagIs "li".data ∘ erase_depth3) = l.filter (tagIs "li".data) :=
    List.filter_congr (fun y _ => tagIs_erase_depth3 "li".data y)
  rw [this, List.map_map]
  refine List.map_congr_left ?_
  intro y hy
  exact item_of_erase (List.of_mem_filter hy)

/-- C7: nested (depth-2) lists are preserved as their item's `children`,
with each sub-item's text and runs extracted exactly as a top-level item's
text and runs would be; and lists nested one level deeper (depth 3) are
discarded entirely — erasing them leaves the extractor's output unchanged,
for unordered and ordered top-level lists alike. -/
theorem C7_depth2_kept_depth3_discarded (attrs : List (List Char × List Char)) (ch : HNodes) :
    handle_element (HNode.elem "ul".data attrs ch) =
      handle_element (HNode.elem "ul".data attrs (HNodes.ofList (ch.toList.map erase_depth3))) ∧
    handle_element (HNode.elem "ol".data attrs ch) =
      handle_element (HNode.elem "ol".data attrs (HNodes.ofList (ch.toList.map erase_depth3))) ∧
    (∀ L : HNode, (sub_list_of L).items =
      ((childrenOf L).filter (tagIs "li".data)).map
        (fun li => ⟨(item_of li).text, (item_of li).runs⟩)) ∧
    (∀ li : HNode, (item_of li).children =
      (if ((childrenOf li).filter is_ul_ol) = [] then none
       else some (((childrenOf li).filter is_ul_ol).map sub_list_of))) := by
  refine ⟨?_, ?_, ?_, ?_⟩
  · rw [handle_ul, handle_ul, toList_ofList, items_erase]
  · rw [handle_ol, handle_ol, toList_ofList, items_erase]
  · intro L
    unfold sub_list_of
    simp only
    refine List.map_congr_left ?_
    intro li _
    unfold sub_item_of item_of
    simp only [List.partition_eq_filter_filter]
    have hfil : (childrenOf li).filter (not ∘ is_ul_ol) =
        (childrenOf li).filter (fun sn => !is_ul_ol sn) :=
      List.filter_congr (fun y _ => rfl)
    rw [hfil]
  · intro li
    unfold item_of
    simp only [List.partition_eq_filter_filter]
    by_cases hnil : ((childrenOf li).filter is_ul_ol) = []
    · simp [hnil]
    · have hm : ((childrenOf li).filter is_ul_ol).map sub_list_of ≠ [] := by
        intro hcon
        exact hnil (List.map_eq_nil_iff.mp hcon)
      rw [if_neg hm, if_neg hnil]

/-! ## C5: orders are 1..N; block ids collide exactly for equal headings -/

theorem blocks_go_orders : ∀ (ns : List HNode) (k : Nat),
    (blocks_go ns k).map EBlock.order = List.range' k (blocks_go ns k).length := by
  intro ns
  induction ns with
  | nil => intro k; simp [blocks_go]
  | cons n rest ih =>
      intro k
      simp only [blocks_go]
      cases h : handle_element n with
      | none => exact ih k
      | some b =>
          simp only [List.map_cons, List.length_cons, List.range'_succ]
          rw [ih (k + 1)]

theorem head_level_bounds {nm : List Char} {l : Nat} (h : head_level nm = some l) :
    2 ≤ l ∧ l ≤ 6 := by
  unfold head_level at h
  repeat' split at h
  all_goals simp_all
  all_goals omega

theorem handle_element_heading {n : HNode} {lvl : Nat} {t s d : List Char}
    (h : handle_element n = some (.heading lvl t s d)) : 2 ≤ lvl ∧ lvl ≤ 6 := by
  cases n with
  | text _ => simp [handle_element] at h
  | elem tag attrs ch =>
      simp only [handle_element] at h
      cases hl : head_level (lowerStr tag) with
      | some l =>
          simp only [hl, Option.some.injEq] at h
          have hb := head_level_bounds hl
          injection h with h2 h3 h4 h5
          omega
      | none =>
          simp only [hl] at h
          repeat' split at h
          all_goals simp_all

/-- Shape of an emitted block id: headings get `h<digit>-<slug>`, everything
else `<type>-<order>`. -/
def id_shape (e : EBlock) : Prop :=
  (∃ lvl t s d, e.block = .heading lvl t s d ∧ 2 ≤ lvl ∧ lvl ≤ 6 ∧
      e.block_id = 'h' :: (decRepr lvl ++ '-' :: _slugify t)) ∨
  ((∀ lvl t s d, e.block ≠ .heading lvl t s d) ∧
      e.block_id = block_type e.block ++ '-' :: decRepr e.order)

theorem push_shape {n : HNode} {b : Block} (k : Nat) (h : handle_element n = some b) :
    id_shape ⟨b, mk_block_id b k, k⟩ := by
  cases b with
  | heading lvl t s d =>
      left
      exact ⟨lvl, t, s, d, rfl, (handle_element_heading h).1, (handle_element_heading h).2, rfl⟩
  | paragraph t r => exact Or.inr ⟨fun lvl t2 s2 d2 hcon => Block.noConfusion hcon, rfl⟩
  | callout v t r => exact Or.inr ⟨fun lvl t2 s2 d2 hcon => Block.noConfusion hcon, rfl⟩
  | list st sa it => exact Or.inr ⟨fun lvl t2 s2 d2 hcon => Block.noConfusion hcon, rfl⟩
  | code t lg => exact Or.inr ⟨fun lvl t2 s2 d2 hcon => Block.noConfusion hcon, rfl⟩
  | blockquote t => exact Or.inr ⟨fun lvl t2 s2 d2 hcon => Block.noConfusion hcon, rfl⟩
  | table h2 r a => exact Or.inr ⟨fun lvl t2 s2 d2 hcon => Block.noConfusion hcon, rfl⟩
  | separator => exact Or.inr ⟨fun lvl t2 s2 d2 hcon => Block.noConfusion hcon, rfl⟩

theorem blocks_go_shape : ∀ (ns : List HNode) (k : Nat), ∀ e ∈ blocks_go ns k, id_shape e := by
  intro ns
  induction ns with
  | nil => intro k e he; simp [blocks_go] at he
  | cons n rest ih =>
      intro k e he
      simp only [blocks_go] at he
      cases h : handle_element n with
      | none =>
          rw [h] at he
          exact ih k e he
      | some b =>
          rw [h] at he
          rcases List.mem_cons.mp he with h2 | h2
          · subst h2
            exact push_shape k h
          · exact ih (k + 1) e h2

theorem blocks_go_order_at (ns : List HNode) (k i : Nat) (hi : i < (blocks_go ns k).length) :
    ((blocks_go ns k).get ⟨i, hi⟩).order = k + i := by
  have hlen : i < ((blocks_go ns k).map EBlock.order).length := by simpa using hi
  have h1 : ((blocks_go ns k).map EBlock.order).get ⟨i, hlen⟩ =
      ((blocks_go ns k).get ⟨i, hi⟩).order := by
    simp
  rw [← h1]
  have h2 := List.get_of_eq (blocks_go_orders ns k) ⟨i, hlen⟩
  rw [h2]
  simp [List.getElem_range']

theorem decRepr_single {l : Nat} (h : l < 10) : decRepr l = [digitChar l] := by
  simp [decRepr, decReprAux, h]

theorem digitChar_inj {a b : Nat} (ha : a < 10) (hb : b < 10)
    (h : digitChar a = digitChar b) : a = b := by
  have h1 := digitChar_toNat a ha
  have h2 := digitChar_toNat b hb
  have h3 := congrArg Char.toNat h
  omega

theorem dash_not_in_block_type (b : Block) : '-' ∉ block_type b := by
  cases b with
  | heading lvl t s d => show '-' ∉ "heading".data ; decide
  | paragraph t r => show '-' ∉ "paragraph".data ; decide
  | callout v t r => show '-' ∉ "callout".data ; decide
  | list st sa it => show '-' ∉ "list".data ; decide
  | code t lg => show '-' ∉ "code".data ; decide
  | blockquote t => show '-' ∉ "blockquote".data ; decide
  | table h2 r a => show '-' ∉ "table".data ; decide
  | separator => show '-' ∉ "separator".data ; decide

/-- Splitting both sides of an equation of `head ++ '-' :: tail` lists at
the first hyphen: when neither head holds a hyphen, heads and tails agree. -/
theorem append_dash_inj : ∀ {l₁ l₂ r₁ r₂ : List Char}, '-' ∉ l₁ → '-' ∉ l₂ →
    l₁ ++ '-' :: r₁ = l₂ ++ '-' :: r₂ → l₁ = l₂ ∧ r₁ = r₂ := by
  intro l₁
  induction l₁ with
  | nil =>
      intro l₂ r₁ r₂ _ h2 h
      cases l₂ with
      | nil => simpa using h
      | cons c t =>
          exfalso
          simp only [List.nil_append, List.cons_append, List.cons.injEq] at h
          exact h2 (List.mem_cons.mpr (Or.inl h.1))
  | cons c t ih =>
      intro l₂ r₁ r₂ h1 h2 h
      cases l₂ with
      | nil =>
          exfalso
          simp only [List.cons_append, List.nil_append, List.cons.injEq] at h
          exact h1 (List.mem_cons.mpr (Or.inl h.1.symm))
      | cons c₂ t₂ =>
          simp only [List.cons_append, List.cons.injEq] at h
          have hrec := ih (fun hm => h1 (List.mem_cons_of_mem c hm))
            (fun hm => h2 (List.mem_cons_of_mem c₂ hm)) h.2
          exact ⟨by rw [h.1, hrec.1], hrec.2⟩

theorem block_type_ne_h_cons (b : Block) (hb : ∀ lvl t s d, b ≠ .heading lvl t s d) :
    ∀ l, block_type b ≠ 'h' :: l := by
  cases b with
  | heading lvl t s d => exact absurd rfl (hb lvl t s d)
  | paragraph t r =>
      intro l hcon
      have := congrArg List.head? hcon
      simp [block_type] at this
  | callout v t r =>
      intro l hcon
      have := congrArg List.head? hcon
      simp [block_type] at this
  | list st sa it =>
      intro l hcon
      have := congrArg List.head? hcon
      simp [block_type] at this
  | code t lg =>
      intro l hcon
      have := congrArg List.head? hcon
      simp [block_type] at this
  | blockquote t =>
      intro l hcon
      have := congrArg List.head? hcon
      simp [block_type] at this
  | table h2 r a =>
      intro l hcon
      have := congrArg List.head? hcon
      simp [block_type] at this
  | separator =>
      intro l hcon
      have := congrArg List.head? hcon
      simp [block_type] at this

/-- The two identical headings used to exhibit the block-id collision. -/
def wFrag : List HNode :=
  [HNode.elem "h2".data [] (.cons (.text "Intro".data) .nil),
   HNode.elem "h2".data [] (.cons (.text "Intro".data) .nil)]

/-- Counterexample to C5 as stated: a fragment with two identical `h2`
headings produces two blocks with the same `block_id` (`h2-intro` twice),
so block ids are not pairwise distinct. -/
theorem C5_counterexample :
    (html_to_blocks wFrag).map EBlock.block_id = ["h2-intro".data, "h2-intro".data] ∧
      ¬ List.Nodup ((html_to_blocks wFrag).map EBlock.block_id) := by
  exact ⟨by decide, by decide⟩

/-- C5 (amended): the `order` values of one extracted block sequence are
exactly 1..N, contiguous and strictly increasing in document order; and two
distinct blocks can share a `block_id` only when both are headings of the
same level whose texts slugify identically. -/
theorem C5_orders_and_id_collisions (fragment : List HNode) :
    (html_to_blocks fragment).map EBlock.order =
      List.range' 1 (html_to_blocks fragment).length ∧
    ∀ (i j : Nat) (hi : i < (html_to_blocks fragment).length)
      (hj : j < (html_to_blocks fragment).length), i ≠ j →
      ((html_to_blocks fragment).get ⟨i, hi⟩).block_id =
        ((html_to_blocks fragment).get ⟨j, hj⟩).block_id →
      ∃ lvl t1 s1 d1 t2 s2 d2,
        ((html_to_blocks fragment).get ⟨i, hi⟩).block = .heading lvl t1 s1 d1 ∧
        ((html_to_blocks fragment).get ⟨j, hj⟩).block = .heading lvl t2 s2 d2 ∧
        _slugify t1 = _slugify t2 := by
  refine ⟨blocks_go_orders fragment 1, ?_⟩
  intro i j hi hj hij hid
  have hoi : ((html_to_blocks fragment).get ⟨i, hi⟩).order = 1 + i :=
    blocks_go_order_at fragment 1 i hi
  have hoj : ((html_to_blocks fragment).get ⟨j, hj⟩).order = 1 + j :=
    blocks_go_order_at fragment 1 j hj
  have hone : ((html_to_blocks fragment).get ⟨i, hi⟩).order ≠
      ((html_to_blocks fragment).get ⟨j, hj⟩).order := by
    rw [hoi, hoj]
    omega
  have hei := blocks_go_shape fragment 1 _ (List.get_mem (html_to_blocks fragment) i hi)
  have hej := blocks_go_shape fragment 1 _ (List.get_mem (html_to_blocks fragment) j hj)
  rcases hei with ⟨lvl1, t1, s1, d1, hb1, hl1, hr1, hid1⟩ | ⟨hnh1, hid1⟩
  · rcases hej with ⟨lvl2, t2, s2, d2, hb2, hl2, hr2, hid2⟩ | ⟨hnh2, hid2⟩
    · rw [hid1, hid2] at hid
      have htl : decRepr lvl1 ++ '-' :: _slugify t1 = decRepr lvl2 ++ '-' :: _slugify t2 := by
        injection hid
      have hd1 := decRepr_single (show lvl1 < 10 by omega)
      have hd2 := decRepr_single (show lvl2 < 10 by omega)
      rw [hd1, hd2] at htl
      have hsplit := append_dash_inj (by
          intro hm
          simp only [List.mem_singleton] at hm
          have := digitChar_toNat lvl1 (by omega)
          have h45 : ('-').toNat = 45 := rfl
          rw [hm] at h45
          omega)
        (by
          intro hm
          simp only [List.mem_singleton] at hm
          have := digitChar_toNat lvl2 (by omega)
          have h45 : ('-').toNat = 45 := rfl
          rw [hm] at h45
          omega) htl
      have hlvl : lvl1 = lvl2 := by
        have := hsplit.1
        simp only [List.cons.injEq] at this
        exact digitChar_inj (by omega) (by omega) this.1
      refine ⟨lvl1, t1, s1, d1, t2, s2, d2, hb1, ?_, hsplit.2⟩
      rw [hb2, hlvl]
    · exfalso
      rw [hid1, hid2] at hid
      have hid3 : ('h' :: decRepr lvl1) ++ '-' :: _slugify t1 =
          block_type ((html_to_blocks fragment).get ⟨j, hj⟩).block ++
            '-' :: decRepr ((html_to_blocks fragment).get ⟨j, hj⟩).order := by
        simpa using hid
      have hnd : '-' ∉ 'h' :: decRepr lvl1 := by
        intro hm
        rcases List.mem_cons.mp hm with hm | hm
        · exact absurd hm.symm (by decide)
        · rw [decRepr_single (show lvl1 < 10 by omega)] at hm
          simp only [List.mem_singleton] at hm
          have := digitChar_toNat lvl1 (by omega)
          have h45 : ('-').toNat = 45 := rfl
          rw [hm] at h45
          omega
      have hsplit := append_dash_inj hnd
        (dash_not_in_block_type ((html_to_blocks fragment).get ⟨j, hj⟩).block) hid3
      exact block_type_ne_h_cons _ hnh2 _ hsplit.1.symm
  · rcases hej with ⟨lvl2, t2, s2, d2, hb2, hl2, hr2, hid2⟩ | ⟨hnh2, hid2⟩
    · exfalso
      rw [hid1, hid2] at hid
      have hid3 : ('h' :: decRepr lvl2) ++ '-' :: _slugify t2 =
          block_type ((html_to_blocks fragment).get ⟨i, hi⟩).block ++
            '-' :: decRepr ((html_to_blocks fragment).get ⟨i, hi⟩).order := by
        simpa using hid.symm
      have hnd : '-' ∉ 'h' :: decRepr lvl2 := by
        intro hm
        rcases List.mem_cons.mp hm with hm | hm
        · exact absurd hm.symm (by decide)
        · rw [decRepr_single (show lvl2 < 10 by omega)] at hm
          simp only [List.mem_singleton] at hm
          have := digitChar_toNat lvl2 (by omega)
          have h45 : ('-').toNat = 45 := rfl
          rw [hm] at h45
          omega
      have hsplit := append_dash_inj hnd
        (dash_not_in_block_type ((html_to_blocks fragment).get ⟨i, hi⟩).block) hid3
      exact block_type_ne_h_cons _ hnh1 _ hsplit.1.symm
    · exfalso
      rw [hid1, hid2] at hid
      have hsplit := append_dash_inj
        (dash_not_in_block_type ((html_to_blocks fragment).get ⟨i, hi⟩).block)
        (dash_not_in_block_type ((html_to_blocks fragment).get ⟨j, hj⟩).block) hid
      exact hone (decRepr_inj hsplit.2)

/-- Witness for C5 at the two-identical-headings fragment: the colliding
blocks are indeed headings of equal level with identical slugified text. -/
theorem C5_witness :
    ∃ lvl t1 s1 d1 t2 s2 d2,
      ((html_to_blocks wFrag).get ⟨0, by decide⟩).block = .heading lvl t1 s1 d1 ∧
      ((html_to_blocks wFrag).get ⟨1, by decide⟩).block = .heading lvl t2 s2 d2 ∧
      _slugify t1 = _slugify t2 :=
  (C5_orders_and_id_collisions wFrag).2 0 1 (by decide) (by decide) (by decide) (by decide)

end Spark
